import Mathlib

/-!
# Verification of the repo-map / next-task workflow orchestration plugin

Shallow embedding of the task discovery/ranking pipeline
(`src/next-task/skills/discover-tasks/SKILL.md`), the resume / registry
logic and the policy mapping (`src/lib/sources/policy-questions.js`,
including the embedded `/next-task` command document), together with
theorems checking the natural-language specification against the code.

Strings are modelled by Lean `String`/`List Char`.  JavaScript numbers
that hold integral millisecond timestamps and issue ids are modelled by
`Int`.  JavaScript `undefined`/missing fields are modelled by `Option`
(or by the empty string where the source only ever uses the field behind
an `x || ''` guard).
-/

namespace RepoMap

/-! ### Definitions: shallow embedding of the source -/

/-- Boolean test that `p` is a prefix of `s`. -/
def listPrefixB {α : Type} [BEq α] : List α → List α → Bool
  | [], _ => true
  | _ :: _, [] => false
  | a :: as, b :: bs => a == b && listPrefixB as bs

/-- Boolean substring test: `p` occurs (contiguously) inside `s`. -/
def listInfixB {α : Type} [BEq α] (p : List α) : List α → Bool
  | [] => listPrefixB p []
  | c :: rest => listPrefixB p (c :: rest) || listInfixB p rest

/-- JavaScript `s.includes(sub)` — substring containment. -/
def strContainsSub (s sub : String) : Bool :=
  listInfixB sub.data s.data

/-- JavaScript `s.endsWith(pat)`. -/
def strEndsWith (s pat : String) : Bool :=
  listPrefixB pat.data.reverse s.data.reverse

/-- A candidate work item as returned by the task source adapters.
`number`/`id` are the JS fields consulted by `String(t.number || t.id)`;
`createdAt` is the parsed creation timestamp in epoch milliseconds
(`none` models a missing/falsy `createdAt` string). -/
structure Task where
  number : Option Int
  id : Option Int
  title : String
  labels : List String
  createdAt : Option Int
deriving DecidableEq, Repr

/-- JavaScript truthiness of a number-or-undefined value
(`undefined` and `0` are falsy). -/
def jsNumTruthy : Option Int → Bool
  | none => false
  | some n => n != 0

/-- JavaScript `a || b` on number-or-undefined values. -/
def jsNumOr (a b : Option Int) : Option Int :=
  if jsNumTruthy a then a else b

/-- JavaScript `String(x)` on a number-or-undefined value. -/
def jsNumToString : Option Int → String
  | none => "undefined"
  | some n => toString n

/-- `String(t.number || t.id)` —  the id key used by both the claimed
filter and the PR-linked filter in Phase 3 of `SKILL.md`. -/
def taskKey (t : Task) : String :=
  jsNumToString (jsNumOr t.number t.id)

/-- JavaScript `toLowerCase`, character by character (ASCII model). -/
def strToLower (s : String) : String := String.mk (s.data.map Char.toLower)

/-- Lowercased labels: `(t.labels || []).map(l => (l.name || l).toLowerCase())`.
A label is modelled by its name string. -/
def lowerLabels (t : Task) : List String :=
  t.labels.map strToLower

/-- One day in milliseconds (the `86400000` constant of `scoreTask`). -/
def dayMs : Int := 86400000

/-- `scoreTask` from Phase 3 of `SKILL.md`, parameterised by `now`
(`Date.now()`).  The age test `(now - createdAt) / 86400000 > 30`
is real-valued division in JS; it is equivalent to
`30 * 86400000 < now - createdAt`, which is how it is written here
(integer division would not be faithful). -/
def scoreTask (now : Int) (t : Task) : Int :=
  let labels := lowerLabels t
  let s1 : Int :=
    if labels.any (fun l => strContainsSub l "critical" || strContainsSub l "p0")
    then 100 else 0
  let s2 : Int :=
    if labels.any (fun l => strContainsSub l "high" || strContainsSub l "p1")
    then 50 else 0
  let s3 : Int := if labels.any (fun l => strContainsSub l "security") then 40 else 0
  let s4 : Int :=
    if labels.any (fun l => strContainsSub l "small" || strContainsSub l "quick")
    then 20 else 0
  let s5 : Int :=
    match t.createdAt with
    | none => 0
    | some c => if labels.contains "bug" && decide (30 * dayMs < now - c) then 10 else 0
  s1 + s2 + s3 + s4 + s5

/-- The property names a JavaScript string-keyed lookup on an object
literal finds on `Object.prototype` when it misses the own keys.  Every
one of these members (methods, and the `__proto__` accessor) is truthy,
so `obj[key] || default` does not fall through to the default there. -/
def protoKeys : List String :=
  ["constructor", "hasOwnProperty", "isPrototypeOf", "propertyIsEnumerable",
   "toLocaleString", "toString", "valueOf", "__defineGetter__",
   "__defineSetter__", "__lookupGetter__", "__lookupSetter__", "__proto__"]

/-- The result of a JavaScript lookup-with-default whose own values are
strings: either a string (an own entry or the default), or a truthy
member inherited from `Object.prototype`. -/
inductive JsStr where
  | str (s : String)
  | protoMember (name : String)
deriving DecidableEq, Repr

/-- The own keys of `LABEL_MAPS` (Phase 3 of `SKILL.md`). -/
def labelMapsOwn (filter : String) : Option (List String) :=
  if filter = "bugs" then some ["bug", "fix", "error", "defect"]
  else if filter = "security" then some ["security", "vulnerability", "cve"]
  else if filter = "features" then some ["enhancement", "feature", "improvement"]
  else none

/-- `LABEL_MAPS[filter] || []` for a `filter` that does not hit
`Object.prototype`; a prototype member is truthy and non-array, and the
`.some` call then throws — that path is modelled by
`filterByPriorityJs`. -/
def labelMapsFor (filter : String) : List String :=
  (labelMapsOwn filter).getD []

/-- `filterByPriority` from Phase 3 of `SKILL.md`. -/
def filterByPriority (tasks : List Task) (filter : String) : List Task :=
  if filter = "continue" ∨ filter = "all" then tasks
  else
    tasks.filter fun t =>
      (labelMapsFor filter).any fun target =>
        (lowerLabels t).any fun l => strContainsSub l target

/-- `tasks.filter(t => !claimedIds.has(String(t.number || t.id)))`. -/
def excludeClaimed (tasks : List Task) (claimedIds : List String) : List Task :=
  tasks.filter fun t => !(claimedIds.contains (taskKey t))

/-- `available.filter(t => !prLinkedIssues.has(String(t.number || t.id)))`. -/
def excludePrLinked (tasks : List Task) (prLinked : List String) : List Task :=
  tasks.filter fun t => !(prLinked.contains (taskKey t))

/-- The comparator order of `.sort((a, b) => b.score - a.score)`:
`a` may be placed before `b` whenever the comparator is `≤ 0`,
i.e. `b.score ≤ a.score`.  JS `Array.prototype.sort` is stable, which
insertion sort with this relation models exactly. -/
def scoreOrder (a b : Task × Int) : Prop := b.2 ≤ a.2

instance : DecidableRel scoreOrder := fun a b =>
  inferInstanceAs (Decidable (b.2 ≤ a.2))

instance : IsTotal (Task × Int) scoreOrder :=
  ⟨fun a b => le_total b.2 a.2⟩

instance : IsTrans (Task × Int) scoreOrder :=
  ⟨fun _ _ _ h1 h2 => le_trans h2 h1⟩

/-- `prioritized.map(t => ({...t, score: scoreTask(t)}))` — a scored task
is modelled as the pair (task, score). -/
def scoredList (now : Int) (tasks : List Task) : List (Task × Int) :=
  tasks.map fun t => (t, scoreTask now t)

/-- `topTasks`: score assignment followed by the stable descending sort. -/
def topTasks (now : Int) (tasks : List Task) (claimedIds inFlight : List String)
    (filter : String) : List (Task × Int) :=
  List.insertionSort scoreOrder
    (scoredList now (filterByPriority (excludePrLinked (excludeClaimed tasks claimedIds) inFlight) filter))

/-- The ranked output presented to the user: `topTasks.slice(0, 5)`. -/
def rank (now : Int) (tasks : List Task) (claimedIds inFlight : List String)
    (filter : String) : List (Task × Int) :=
  (topTasks now tasks claimedIds inFlight filter).take 5

/-- `filterByPriority` with the full JavaScript lookup semantics: the
`continue`/`all` bypass returns first; otherwise, when `filter` is an
`Object.prototype` property name, `LABEL_MAPS[filter]` is a truthy
inherited member and `targetLabels.some` throws a `TypeError`. -/
def filterByPriorityJs (tasks : List Task) (filter : String) :
    Except String (List Task) :=
  if filter = "continue" ∨ filter = "all" then .ok tasks
  else if protoKeys.contains filter then
    .error "TypeError: targetLabels.some is not a function"
  else
    .ok (tasks.filter fun t =>
      (labelMapsFor filter).any fun target =>
        (lowerLabels t).any fun l => strContainsSub l target)

/-- The discovery pipeline with the `filterByPriority` error path: on a
prototype-key filter the scoring step is never reached and the thrown
`TypeError` surfaces; otherwise the ranked output is `rank`. -/
def rankJs (now : Int) (tasks : List Task) (claimedIds inFlight : List String)
    (filter : String) : Except String (List (Task × Int)) :=
  match filterByPriorityJs (excludePrLinked (excludeClaimed tasks claimedIds) inFlight)
      filter with
  | .error e => .error e
  | .ok prioritized =>
    .ok ((List.insertionSort scoreOrder (scoredList now prioritized)).take 5)

/-- The fixed `stepToPhase` table of `mapStepToPhase`. -/
def stepPhaseTable : List (String × String) :=
  [("worktree-created", "exploration"),
   ("exploration-completed", "planning"),
   ("plan-approved", "implementation"),
   ("implementation-completed", "pre-review-gates"),
   ("deslop-work-completed", "review-loop"),
   ("review-approved", "delivery-validation"),
   ("delivery-validation-passed", "docs-update"),
   ("docs-updated", "ship"),
   ("ready-to-ship", "ship")]

/-- `mapStepToPhase(step)`: `stepToPhase[step] || 'exploration'`.
An own-key hit returns the table's phase.  A miss consults
`Object.prototype`: for a property name inherited from there the lookup
yields a truthy member, which `||` returns as-is; only a genuine miss
(`undefined`, falsy) falls through to `'exploration'`. -/
def mapStepToPhase (step : String) : JsStr :=
  if step = "worktree-created" then .str "exploration"
  else if step = "exploration-completed" then .str "planning"
  else if step = "plan-approved" then .str "implementation"
  else if step = "implementation-completed" then .str "pre-review-gates"
  else if step = "deslop-work-completed" then .str "review-loop"
  else if step = "review-approved" then .str "delivery-validation"
  else if step = "delivery-validation-passed" then .str "docs-update"
  else if step = "docs-updated" then .str "ship"
  else if step = "ready-to-ship" then .str "ship"
  else if protoKeys.contains step then .protoMember step
  else .str "exploration"

/-- One entry of the shared registry `.claude/tasks.json`. -/
structure RegTask where
  id : String
  worktreePath : String
  branch : String
deriving DecidableEq, Repr

/-- The shared registry document `{ tasks: [...] }`. -/
structure Registry where
  tasks : List RegTask
deriving DecidableEq, Repr

/-- The value returned by `findWorktreeToResume`:
`{ path, task }` with `task: null` for the literal-path fallback. -/
structure Worktree where
  path : String
  task : Option RegTask
deriving DecidableEq, Repr

/-- JavaScript truthiness of the resume argument
(`undefined` and `''` are falsy). -/
def argTruthy : Option String → Bool
  | none => false
  | some s => s != ""

/-- `findWorktreeToResume(arg)`.  `registryFile = none` models a missing
`.claude/tasks.json`; `fsPaths` is the set of paths for which
`fs.existsSync` is true.  A missing argument (`undefined`) matches no
task id (`t.id === undefined` is false for string ids), but
`t.branch.endsWith(arg)` coerces `undefined` to the string
`"undefined"`, so a branch that literally ends in that text matches. -/
def findWorktreeToResume (arg : Option String) (registryFile : Option Registry)
    (fsPaths : List String) : Option Worktree :=
  match registryFile with
  | none => none
  | some registry =>
    if argTruthy arg = false ∧ registry.tasks.length = 1 then
      match registry.tasks.head? with
      | some t => some { path := t.worktreePath, task := some t }
      | none => none
    else
      match registry.tasks.find? (fun t => match arg with
          | some a => t.id == a
          | none => false) with
      | some t => some { path := t.worktreePath, task := some t }
      | none =>
        match registry.tasks.find? (fun t => match arg with
            | some a => t.branch == a || strEndsWith t.branch a
            | none => strEndsWith t.branch "undefined") with
        | some t => some { path := t.worktreePath, task := some t }
        | none =>
          match arg with
          | some a => if argTruthy (some a) ∧ fsPaths.contains a then
              some { path := a, task := none }
            else none
          | none => none

/-- One entry of `.claude/workflow-status.json`'s `steps` array. -/
structure StepEntry where
  step : String
  status : String
deriving DecidableEq, Repr

/-- The per-worktree checkpoint log `{ steps: [...] }`. -/
structure StatusLog where
  steps : List StepEntry
deriving DecidableEq, Repr

/-- The `--resume` handler's consumption of a parsed log: it reads
`status.steps[status.steps.length - 1]` and maps its step name.  With an
empty `steps` array the JS indexes to `undefined` and `lastStep.step`
throws a `TypeError`; no other validation of the log is performed. -/
def resumeFromStatus (log : StatusLog) : Except String JsStr :=
  match log.steps.getLast? with
  | none => .error "TypeError: lastStep is undefined"
  | some e => .ok (mapStepToPhase e.step)

/-- Outcome of the `--resume` pre-flight handler. -/
inductive ResumeOutcome where
  | noWorktree
  | noStatusFile (path : String)
  | jsError (msg : String)
  | resuming (phase : JsStr)
deriving DecidableEq, Repr

/-- The `--resume` pre-flight handler: resolve the worktree, read its
`workflow-status.json` (`logs` maps a worktree path to its parsed log,
`none` for a missing file), print the last step (throws on an empty
log), `process.chdir` into the worktree and map the last step to the
resume phase.  The returned string is the current directory afterwards —
the only mutation the handler performs. -/
def resumeHandler (arg : Option String) (registryFile : Option Registry)
    (fsPaths : List String) (logs : String → Option StatusLog)
    (cwd : String) : ResumeOutcome × String :=
  match findWorktreeToResume arg registryFile fsPaths with
  | none => (.noWorktree, cwd)
  | some w =>
    match logs w.path with
    | none => (.noStatusFile w.path, cwd)
    | some log =>
      match resumeFromStatus log with
      | .error e => (.jsError e, cwd)
      | .ok phase => (.resuming phase, w.path)

/-- From the spec (§4.4): the canonical order of completed-step names,
used only to state structural validity of a log; the source performs no
such check. -/
def canonicalStepNames : List String :=
  stepPhaseTable.map Prod.fst

/-- From the spec (§3, §4.3): a log is structurally valid when its
completed steps form a prefix of the canonical order. -/
def validCompletedPrefixB (log : StatusLog) : Bool :=
  listPrefixB ((log.steps.filter (fun e => e.status == "completed")).map StepEntry.step)
    canonicalStepNames

/-- Refinement comparison for resume-argument resolution, written from
the spec's words: try exact task-id match first, then branch
exact-or-suffix match, then literal path existence, returning the first
interpretation that matches. -/
def resolveArgSpec (a : String) (reg : Registry) (fsPaths : List String) :
    Option Worktree :=
  match reg.tasks.find? (fun t => t.id == a) with
  | some t => some { path := t.worktreePath, task := some t }
  | none =>
    match reg.tasks.find? (fun t => t.branch == a || strEndsWith t.branch a) with
    | some t => some { path := t.worktreePath, task := some t }
    | none =>
      if fsPaths.contains a then some { path := a, task := none } else none

/-- The follow-up details for a `Custom` source selection.  `ctype`
models the JS field `type` (a Lean keyword); `description` is the
free-text for an `Other` source. -/
structure CustomDetails where
  ctype : String
  name : String
  description : Option String := none
deriving DecidableEq, Repr

/-- The GitHub Projects follow-up answers: `number` arrives as arbitrary
text, `owner` may be absent. -/
structure ProjectResp where
  number : String
  owner : Option String := none
deriving DecidableEq, Repr

/-- The user's answers passed to `parseAndCachePolicy`. -/
structure Responses where
  source : String
  priority : String
  stopPoint : String
  custom : Option CustomDetails := none
  project : Option ProjectResp := none
deriving DecidableEq, Repr

/-- A task-source configuration object.  `ctype` models the JS field
`type`. -/
structure SourceConfig where
  source : String
  tool : Option String := none
  ctype : Option String := none
  description : Option String := none
  projectNumber : Option Int := none
  owner : Option String := none
deriving DecidableEq, Repr

/-- The result of the `mapSource` lookup chain: a source configuration
object, or a truthy member inherited from `Object.prototype`. -/
inductive JsSource where
  | config (c : SourceConfig)
  | protoMember (name : String)
deriving DecidableEq, Repr

/-- JavaScript member access `v.source`: `undefined` on an inherited
prototype member. -/
def sourceOf : JsSource → Option String
  | .config c => some c.source
  | .protoMember _ => none

/-- The policy object `parseAndCachePolicy` builds.  `taskSource` can be
a prototype member (truthy, so it passes the null guard); the filters
can likewise be inherited members for prototype-key selections. -/
structure Policy where
  taskSource : JsSource
  priorityFilter : JsStr
  stoppingPoint : JsStr
deriving DecidableEq, Repr

/-- Modelled from the spec: `custom-handler.js` is required by
`policy-questions.js` but is not under src/.  Per the source comment,
`mapTypeSelection` normalizes a type label such as "CLI Tool" to an
internal value (`cli`, `mcp`, `skill` or `file`). -/
def mapTypeSelection (sel : String) : String :=
  if sel = "CLI Tool" then "cli"
  else if sel = "MCP Server" then "mcp"
  else if sel = "Skill" then "skill"
  else if sel = "File Path" then "file"
  else sel

/-- Modelled from the spec: `custom-handler.js` is not under src/; the
spec's Policy variant for a custom source is a custom-tool description
(normalized type plus tool name). -/
def buildCustomConfig (t name : String) : SourceConfig :=
  { source := "custom", ctype := some t, tool := some name }

/-- The `sourceMap` object literal of `mapSource`.  `Custom` and `Other`
are bound to `null` in the JS object and a lookup miss is `undefined`;
both are falsy in `sourceMap[selection] || { source: 'github' }`, so
both are `none` here. -/
def sourceMapLookup (selection : String) : Option SourceConfig :=
  if selection = "GitHub Issues" then some { source := "github" }
  else if selection = "GitHub Projects" then some { source := "gh-projects" }
  else if selection = "GitLab Issues" then some { source := "gitlab" }
  else if selection = "Local tasks.md" then some { source := "local" }
  else none

/-- `mapSource(selection, customDetails)`.  The cached preference
(`sourceCache.getPreference()`) is passed in as `cache`; `none` models
an empty cache, which is what makes the `(last used)` branch return
`null`.  The final `sourceMap[selection] || { source: 'github' }`: an
own string key returns its config; the own keys `Custom`/`Other` hold
`null` (falsy, like a miss); a miss that hits an `Object.prototype`
property name returns that truthy inherited member as-is; only a genuine
miss falls through to the github default. -/
def mapSource (cache : Option JsSource) (selection : String)
    (customDetails : Option CustomDetails) : Option JsSource :=
  if strContainsSub selection "(last used)" then cache
  else if selection = "Custom" ∧ customDetails.isSome then
    match customDetails with
    | some cd => some (.config (buildCustomConfig (mapTypeSelection cd.ctype) cd.name))
    | none => none
  else if selection = "Other" then
    some (JsSource.config
      { source := "other"
        description := some ((customDetails.bind CustomDetails.description).getD "") })
  else
    match sourceMapLookup selection with
    | some cfg => some (.config cfg)
    | none =>
      if protoKeys.contains selection then some (.protoMember selection)
      else some (.config { source := "github" })

/-- `mapPriority(selection)`: `map[selection] || 'all'` — the four own
keys, then the `Object.prototype` members (truthy, returned as-is), then
the `'all'` default. -/
def mapPriority (selection : String) : JsStr :=
  if selection = "All" then .str "all"
  else if selection = "Bugs" then .str "bugs"
  else if selection = "Security" then .str "security"
  else if selection = "Features" then .str "features"
  else if protoKeys.contains selection then .protoMember selection
  else .str "all"

/-- `mapStopPoint(selection)`: `map[selection] || 'merged'` — the five
own keys, then the `Object.prototype` members, then the `'merged'`
default. -/
def mapStopPoint (selection : String) : JsStr :=
  if selection = "Merged" then .str "merged"
  else if selection = "PR Created" then .str "pr-created"
  else if selection = "Implemented" then .str "implemented"
  else if selection = "Deployed" then .str "deployed"
  else if selection = "Production" then .str "production"
  else if protoKeys.contains selection then .protoMember selection
  else .str "merged"

/-- Printable-ASCII test for `[^\x20-\x7E]`. -/
def isAsciiPrintable (c : Char) : Bool :=
  32 ≤ c.toNat && c.toNat ≤ 126

/-- `String(x).replace(/[^\x20-\x7E]/g, '?').substring(0, n)`. -/
def sanitize (s : String) (n : Nat) : String :=
  String.mk ((s.data.map (fun c => if isAsciiPrintable c then c else '?')).take n)

/-- The `/^[1-9][0-9]*$/` test on the trimmed project number. -/
def isPosIntString (s : String) : Bool :=
  match s.data with
  | [] => false
  | c :: rest => ('1' ≤ c && c ≤ '9') && rest.all Char.isDigit

/-- The `/^(@me|[a-zA-Z0-9][a-zA-Z0-9_-]*)$/` test on the owner. -/
def isValidOwner (s : String) : Bool :=
  s == "@me" ||
    (match s.data with
     | [] => false
     | c :: rest => c.isAlphanum && rest.all (fun d => d.isAlphanum || d == '_' || d == '-'))

/-- JavaScript truthiness of a string-or-undefined value. -/
def optStrTruthy : Option String → Bool
  | none => false
  | some s => s != ""

/-- The gh-projects follow-up merge and validation block of
`parseAndCachePolicy`. -/
def ghProjectsMerge (ts : SourceConfig) (project : Option ProjectResp) :
    Except String SourceConfig :=
  match project with
  | some pr =>
    let rawNum := pr.number.trim
    if isPosIntString rawNum = false then
      .error ("Invalid project number: \"" ++ sanitize pr.number 32
        ++ "\". Must be a positive integer.")
    else
      let num : Int := Int.ofNat (rawNum.toNat?.getD 0)
      let owner := (pr.owner.getD "").trim
      if owner == "" || isValidOwner owner = false then
        .error ("Invalid project owner: \"" ++ sanitize (pr.owner.getD "") 64
          ++ "\" (use @me or an org/user name)")
      else .ok { ts with projectNumber := some num, owner := some owner }
  | none =>
    if jsNumTruthy ts.projectNumber = false ∨ optStrTruthy ts.owner = false then
      .error "GitHub Projects source requires project number and owner. Call getProjectQuestions() first."
    else .ok ts

/-- `parseAndCachePolicy(responses)`, with the preference cache passed
and returned explicitly (it is the only state the function touches):
build the policy, throw when `mapSource` returned `null` (the
`(last used)` selection over an empty cache), merge/validate the
gh-projects follow-up, then cache the source preference (gh-projects
only with number and owner present; `other` never). -/
def parseAndCachePolicy (responses : Responses) (cache : Option JsSource) :
    Except String Policy × Option JsSource :=
  match mapSource cache responses.source responses.custom with
  | none => (.error "Cached source preference not found. Please select a source.", cache)
  | some tv =>
    let pf := mapPriority responses.priority
    let sp := mapStopPoint responses.stopPoint
    match tv with
    | .protoMember m =>
      -- an inherited member is truthy, so the null guard passes; its
      -- `.source` is undefined, so the gh-projects branch is skipped and
      -- `undefined !== 'other'` caches the member as the preference
      (.ok { taskSource := .protoMember m, priorityFilter := pf, stoppingPoint := sp },
        some (.protoMember m))
    | .config ts0 =>
      match (if ts0.source = "gh-projects" then ghProjectsMerge ts0 responses.project
             else .ok ts0) with
      | .error e => (.error e, cache)
      | .ok ts =>
        let cacheAfter :=
          if ts.source = "gh-projects" then
            if jsNumTruthy ts.projectNumber && optStrTruthy ts.owner then
              some (.config ts)
            else cache
          else if ts.source ≠ "other" then some (.config ts)
          else cache
        (.ok { taskSource := .config ts, priorityFilter := pf, stoppingPoint := sp },
          cacheAfter)

/-- JavaScript `\s` (ASCII portion). -/
def isJsSpace (c : Char) : Bool :=
  c == ' ' || c == '\t' || c == '\n' || c == '\r' || c == '\x0b' || c == '\x0c'

/-- JavaScript `\w`: `[A-Za-z0-9_]` (ASCII model). -/
def isWordChar (c : Char) : Bool :=
  c.isAlphanum || c == '_'

/-- Lowercasing a char list (ASCII model of `toLowerCase`); used to
compile the case-insensitive `/i` regex flag by matching lowercase
patterns against the lowercased text. -/
def lcList (s : List Char) : List Char := s.map Char.toLower

/-- Compiled from the branch regex `-(\d+)$` (tested by
`(pr.headRefName || '').match`): the match exists exactly when the
maximal trailing digit run is nonempty and preceded by `'-'`; the
capture is that run. -/
def branchIssue (branch : String) : Option String :=
  let rev := branch.data.reverse
  let ds := rev.takeWhile Char.isDigit
  if ds ≠ [] ∧ (rev.dropWhile Char.isDigit).head? = some '-' then
    some (String.mk ds.reverse)
  else none

/-- Compiled from `/\(#(\d+)\)/` tested at the head of `s`: `(#`,
a nonempty digit run (maximal — the following char is `)`), then `)`.
Returns the capture. -/
def parenMatchAt (s : List Char) : Option String :=
  match s with
  | a :: b :: rest =>
    if a = '(' ∧ b = '#' then
      if rest.takeWhile Char.isDigit ≠ [] ∧ (rest.dropWhile Char.isDigit).head? = some ')' then
        some (String.mk (rest.takeWhile Char.isDigit))
      else none
    else none
  | _ => none

/-- The `matchAll` loop over `(pr.title || '')`: scan left to right,
emit each match's capture, resume after the matched text
(`(#` + digits + `)` is `d.data.length + 3` chars). -/
def titleScanAux : Nat → List Char → List String
  | 0, _ => []
  | _ + 1, [] => []
  | fuel + 1, c :: rest =>
    match parenMatchAt (c :: rest) with
    | some d => d :: titleScanAux fuel ((c :: rest).drop (d.data.length + 3))
    | none => titleScanAux fuel rest

/-- All captures of `/\(#(\d+)\)/g` over the title. -/
def titleIds (title : String) : List String :=
  titleScanAux (title.data.length + 1) title.data

/-- The nine closing-keyword forms of
`close[sd]? | fix(?:e[sd])? | resolve[sd]?` (lowercase). -/
def kwVariants : List (List Char) :=
  ["close".data, "closes".data, "closed".data,
   "fix".data, "fixes".data, "fixed".data,
   "resolve".data, "resolves".data, "resolved".data]

/-- Does the text continue with an optional `[sd]` regex suffix? -/
def sdSuffix (l : List Char) : Bool :=
  match l.head? with
  | some c => c == 's' || c == 'd'
  | none => false

/-- Does the text continue with an optional `e[sd]` regex suffix? -/
def esdSuffix (l : List Char) : Bool :=
  match l with
  | a :: b :: _ => a == 'e' && (b == 's' || b == 'd')
  | _ => false

/-- Compiled from the keyword alternation (applied to the lowercased
body, which compiles the `/i` flag): returns the number of chars the
keyword consumes, taking the optional `[sd]` / `e[sd]` suffix greedily
as the regex does. -/
def tryKeyword (s : List Char) : Option Nat :=
  if listPrefixB "close".data s then
    some (if sdSuffix (s.drop 5) then 6 else 5)
  else if listPrefixB "fix".data s then
    some (if esdSuffix (s.drop 3) then 5 else 3)
  else if listPrefixB "resolve".data s then
    some (if sdSuffix (s.drop 7) then 8 else 7)
  else none

/-- The continuation of the body pattern after the keyword: one or more
spaces, `#`, a nonempty maximal digit run.  Returns the capture and the
total number of chars matched. -/
def mBodyAfter (k : Nat) (s : List Char) : Option (String × Nat) :=
  if (s.drop k).takeWhile isJsSpace ≠ []
      ∧ ((s.drop k).dropWhile isJsSpace).head? = some '#' then
    if (((s.drop k).dropWhile isJsSpace).tail).takeWhile Char.isDigit ≠ [] then
      some (String.mk ((((s.drop k).dropWhile isJsSpace).tail).takeWhile Char.isDigit),
        k + ((s.drop k).takeWhile isJsSpace).length + 1
          + ((((s.drop k).dropWhile isJsSpace).tail).takeWhile Char.isDigit).length)
    else none
  else none

/-- Compiled from `\b(?:close[sd]?|fix(?:e[sd])?|resolve[sd]?)\s+#(\d+)`
tested at the head of `s` (the word boundary is the caller's job). -/
def mBody (s : List Char) : Option (String × Nat) :=
  match tryKeyword s with
  | none => none
  | some k => mBodyAfter k s

/-- The `\b` word boundary before a match, given the previous char
(`none` at the start of the text). -/
def bdryOk : Option Char → Bool
  | none => true
  | some c => !isWordChar c

/-- The char that precedes the text after skipping `a`: the last char
of `a`, or the original preceding char when `a` is empty. -/
def prevOf (prev : Option Char) (a : List Char) : Option Char :=
  match a.getLast? with
  | some c => some c
  | none => prev

/-- The `matchAll` loop over the (lowercased) body: at each position
with a word boundary, try the closing-keyword pattern; on a match, emit
the capture and resume after the matched text, tracking the previous
char for the next boundary test. -/
def bodyScanAux : Nat → Option Char → List Char → List String
  | 0, _, _ => []
  | _ + 1, _, [] => []
  | fuel + 1, prev, c :: rest =>
    if bdryOk prev then
      match mBody (c :: rest) with
      | some (d, n) =>
        d :: bodyScanAux fuel (((c :: rest).take n).getLast?) ((c :: rest).drop n)
      | none => bodyScanAux fuel (some c) rest
    else bodyScanAux fuel (some c) rest

/-- All captures of the closing-keyword regex over the body. -/
def bodyIds (body : String) : List String :=
  bodyScanAux (body.data.length + 1) none (lcList body.data)

/-- An open PR as fetched by `gh pr list --json number,title,body,headRefName`.
A missing field is modelled by `""` (the source only reads the fields
behind `|| ''` guards, or behind an `if (pr.body)` whose false case
skips the scan — and a scan of `""` finds nothing). -/
structure PR where
  headRefName : String
  body : String
  title : String
deriving DecidableEq, Repr

/-- The per-PR additions to `prLinkedIssues`, in source order: branch
suffix, body closing keywords, title `(#N)` occurrences. -/
def prIssueIds (pr : PR) : List String :=
  (match branchIssue pr.headRefName with
   | some d => [d]
   | none => [])
  ++ (if pr.body ≠ "" then bodyIds pr.body else [])
  ++ titleIds pr.title

/-- The `prLinkedIssues` set built by the Phase 2.5 loop (a list whose
membership is the set's membership). -/
def prLinkedIssues (prs : List PR) : List String :=
  (prs.map prIssueIds).flatten

/-- Phase 2.5 with its `try/catch`: an unreachable or unparsable PR
source yields the empty set (fail open). -/
def buildInFlight (fetched : Except String (List PR)) : List String :=
  match fetched with
  | .error _ => []
  | .ok prs => prLinkedIssues prs

/-- Reference predicate: the branch name ends in `-d` for a nonempty
digit run `d`. -/
def BranchRef (branch d : String) : Prop :=
  d.data ≠ [] ∧ (∀ c ∈ d.data, Char.isDigit c = true) ∧
    ∃ pre, branch.data = pre ++ '-' :: d.data

/-- Reference predicate: the title contains `(#d)` for a nonempty digit
run `d`. -/
def TitleRef (title d : String) : Prop :=
  d.data ≠ [] ∧ (∀ c ∈ d.data, Char.isDigit c = true) ∧
    ∃ pre post, title.data = pre ++ '(' :: '#' :: (d.data ++ ')' :: post)

/-- The syntactic shape of one closing-keyword reference: a keyword
variant, one or more spaces, `#`, then `d` as a nonempty maximal digit
run (`n` is its total length). -/
def MShape (s : List Char) (d : String) (n : Nat) : Prop :=
  ∃ kw sp rest,
    s = kw ++ (sp ++ '#' :: (d.data ++ rest)) ∧
    kw ∈ kwVariants ∧ sp ≠ [] ∧ (∀ c ∈ sp, isJsSpace c = true) ∧
    d.data ≠ [] ∧ (∀ c ∈ d.data, Char.isDigit c = true) ∧
    (∀ c, rest.head? = some c → Char.isDigit c = false) ∧
    n = kw.length + sp.length + 1 + d.data.length

/-- Reference predicate: `s` contains, at a word boundary, a closing
keyword followed by whitespace and `#d`; `prev` is the char before `s`
(for the boundary at position 0). -/
def OccBody (prev : Option Char) (s : List Char) (d : String) : Prop :=
  ∃ pre tail n,
    s = pre ++ tail ∧ MShape tail d n ∧
    (match pre.getLast? with
     | none => bdryOk prev = true
     | some c => isWordChar c = false)

/-- Reference predicate: the body (lowercased, compiling the regex's
`/i` flag) contains a word-bounded closing keyword followed by
whitespace and `#d`. -/
def BodyRef (body d : String) : Prop :=
  OccBody none (lcList body.data) d

/-- Occurrence predicate for one title: some position carries `(#d)`. -/
def OccTitle (s : List Char) (d : String) : Prop :=
  d.data ≠ [] ∧ (∀ c ∈ d.data, Char.isDigit c = true) ∧
    ∃ pre post, s = pre ++ '(' :: '#' :: (d.data ++ ')' :: post)

/-! ### Theorems -/

theorem listPrefixB_iff {α : Type} [BEq α] [LawfulBEq α] (p s : List α) :
    listPrefixB p s = true ↔ ∃ t, s = p ++ t := by
  induction p generalizing s with
  | nil => simp [listPrefixB]
  | cons a as ih =>
    cases s with
    | nil => simp [listPrefixB]
    | cons b bs =>
      simp only [listPrefixB, Bool.and_eq_true, beq_iff_eq, ih]
      constructor
      · rintro ⟨rfl, t, rfl⟩; exact ⟨t, rfl⟩
      · rintro ⟨t, h⟩
        cases h
        exact ⟨rfl, t, rfl⟩

theorem listInfixB_iff {α : Type} [BEq α] [LawfulBEq α] (p s : List α) :
    listInfixB p s = true ↔ ∃ pre post, s = pre ++ p ++ post := by
  induction s with
  | nil =>
    simp only [listInfixB, listPrefixB_iff]
    constructor
    · rintro ⟨t, h⟩
      exact ⟨[], t, by simpa using h⟩
    · rintro ⟨pre, post, h⟩
      refine ⟨post, ?_⟩
      have hpre : pre = [] := by
        cases pre with
        | nil => rfl
        | cons x xs => simp at h
      subst hpre
      simpa using h
  | cons b bs ih =>
    simp only [listInfixB, Bool.or_eq_true, listPrefixB_iff, ih]
    constructor
    · rintro (⟨t, h⟩ | ⟨pre, post, h⟩)
      · exact ⟨[], t, by simpa using h⟩
      · exact ⟨b :: pre, post, by simp [h]⟩
    · rintro ⟨pre, post, h⟩
      cases pre with
      | nil => exact Or.inl ⟨post, by simpa using h⟩
      | cons x xs =>
        simp only [List.cons_append, List.cons.injEq] at h
        exact Or.inr ⟨xs, post, h.2⟩

theorem strEndsWith_iff (s pat : String) :
    strEndsWith s pat = true ↔ ∃ pre, s.data = pre ++ pat.data := by
  simp only [strEndsWith, listPrefixB_iff]
  constructor
  · rintro ⟨t, h⟩
    refine ⟨t.reverse, ?_⟩
    have := congrArg List.reverse h
    simpa using this
  · rintro ⟨pre, h⟩
    exact ⟨pre.reverse, by simp [h]⟩

theorem filterByPriority_subset (tasks : List Task) (filter : String) :
    filterByPriority tasks filter ⊆ tasks := by
  unfold filterByPriority
  split
  · exact fun _ h => h
  · exact (List.filter_sublist _).subset

theorem mem_scoredList {now : Int} {tasks : List Task} {p : Task × Int}
    (h : p ∈ scoredList now tasks) : p.1 ∈ tasks := by
  rcases List.mem_map.mp h with ⟨t, ht, rfl⟩
  exact ht

theorem mem_excludeClaimed {tasks : List Task} {claimedIds : List String} {t : Task}
    (h : t ∈ excludeClaimed tasks claimedIds) :
    claimedIds.contains (taskKey t) = false := by
  have := (List.mem_filter.mp h).2
  simpa using this

/-- Stability of `orderedInsert`: inserting `x` puts it in front of all
elements with the same score. -/
theorem filter_orderedInsert_self (x : Task × Int) (l : List (Task × Int)) :
    (List.orderedInsert scoreOrder x l).filter (fun y => y.2 == x.2)
      = x :: l.filter (fun y => y.2 == x.2) := by
  induction l with
  | nil => simp [List.orderedInsert]
  | cons y l ih =>
    by_cases h : scoreOrder x y
    · rw [List.orderedInsert, if_pos h]
      simp [List.filter_cons]
    · rw [List.orderedInsert, if_neg h]
      have hy : (y.2 == x.2) = false := by
        simp only [scoreOrder, not_le] at h
        simp only [beq_eq_false_iff_ne, ne_eq]
        omega
      simp [List.filter_cons, hy, ih]

/-- `orderedInsert` does not disturb elements of a different score. -/
theorem filter_orderedInsert_ne (x : Task × Int) (s : Int) (hs : x.2 ≠ s)
    (l : List (Task × Int)) :
    (List.orderedInsert scoreOrder x l).filter (fun y => y.2 == s)
      = l.filter (fun y => y.2 == s) := by
  have hx : (x.2 == s) = false := by simpa using hs
  induction l with
  | nil => simp [List.orderedInsert, hx]
  | cons y l ih =>
    by_cases h : scoreOrder x y
    · rw [List.orderedInsert, if_pos h]
      simp [List.filter_cons, hx]
    · rw [List.orderedInsert, if_neg h]
      simp [List.filter_cons, ih]

/-- Stability of the stable descending sort: restricted to any single
score, the sorted list is the unsorted list. -/
theorem filter_insertionSort_score (s : Int) (l : List (Task × Int)) :
    (List.insertionSort scoreOrder l).filter (fun y => y.2 == s)
      = l.filter (fun y => y.2 == s) := by
  induction l with
  | nil => rfl
  | cons x l ih =>
    show (List.orderedInsert scoreOrder x (List.insertionSort scoreOrder l)).filter _ = _
    by_cases h : x.2 = s
    · subst h
      rw [filter_orderedInsert_self, ih]
      simp [List.filter_cons]
    · rw [filter_orderedInsert_ne x s h, ih]
      have hx : (x.2 == s) = false := by simpa using h
      simp [List.filter_cons, hx]

/-- C1.  For every candidate list, claimed-id set, in-flight set and
policy, the ranked output of the discovery pipeline contains no task
whose id key (`String(t.number || t.id)`) is a member of the claimed
set. -/
theorem ranked_excludes_claimed :
    ∀ (now : Int) (tasks : List Task) (claimedIds inFlight : List String)
      (filter : String),
      ((rank now tasks claimedIds inFlight filter).all
        fun p => !(claimedIds.contains (taskKey p.1))) = true := by
  intro now tasks claimedIds inFlight filter
  rw [List.all_eq_true]
  intro p hp
  have hp1 : p ∈ topTasks now tasks claimedIds inFlight filter :=
    List.take_subset 5 _ hp
  have hp2 : p ∈ scoredList now
      (filterByPriority (excludePrLinked (excludeClaimed tasks claimedIds) inFlight) filter) :=
    (List.perm_insertionSort scoreOrder _).subset hp1
  have hp3 : p.1 ∈ excludePrLinked (excludeClaimed tasks claimedIds) inFlight :=
    filterByPriority_subset _ _ (mem_scoredList hp2)
  have hp4 : p.1 ∈ excludeClaimed tasks claimedIds :=
    (List.filter_sublist _).subset hp3
  have := mem_excludeClaimed hp4
  simpa using this

/-- C2.  `scoreTask` is the sum of the five scoring clauses
(+100 critical/p0, +50 high/p1, +40 security, +20 small/quick,
+10 bug-labelled and older than 30 days), and on the spec's scenario
(candidates `[{id:1,labels:[bug],createdAt:40d-ago}, {id:2,labels:[critical]}]`,
empty claimed set, filter `all`) the ranked result is task 2 with score
100 followed by task 1 with score 10. -/
theorem scoreTask_sum_and_scenario :
    (∀ (now : Int) (t : Task),
      scoreTask now t =
        (if (lowerLabels t).any (fun l => strContainsSub l "critical" || strContainsSub l "p0")
          then 100 else 0)
        + (if (lowerLabels t).any (fun l => strContainsSub l "high" || strContainsSub l "p1")
          then 50 else 0)
        + (if (lowerLabels t).any (fun l => strContainsSub l "security") then 40 else 0)
        + (if (lowerLabels t).any (fun l => strContainsSub l "small" || strContainsSub l "quick")
          then 20 else 0)
        + (match t.createdAt with
          | none => 0
          | some c =>
            if "bug" ∈ lowerLabels t ∧ 30 * dayMs < now - c then 10 else 0))
    ∧ rank (40 * dayMs)
        [{ number := some 1, id := none, title := "t1", labels := ["bug"], createdAt := some 0 },
         { number := some 2, id := none, title := "t2", labels := ["critical"], createdAt := none }]
        [] [] "all"
      = [({ number := some 2, id := none, title := "t2", labels := ["critical"], createdAt := none }, 100),
         ({ number := some 1, id := none, title := "t1", labels := ["bug"], createdAt := some 0 }, 10)] := by
  constructor
  · intro now t
    unfold scoreTask
    rcases h : t.createdAt with _ | c
    · rfl
    · by_cases hb : "bug" ∈ lowerLabels t
      · by_cases ha : 30 * dayMs < now - c
        · simp [hb, ha, List.contains_iff_exists_mem_beq]
        · simp [ha]
      · have : (lowerLabels t).contains "bug" = false := by
          simp only [List.contains_eq_any_beq, List.any_eq_false]
          intro l hl
          simp only [beq_iff_eq]
          intro hle
          exact hb (hle ▸ hl)
        simp [this, hb]
  · rfl

/-- C3.  The ranked output is the stable descending sort of the scored
candidates truncated to five entries: it is sorted so that scores never
increase, tasks with equal scores keep their input order (for every
score, filtering the sorted list gives exactly the unsorted sublist),
and at most 5 tasks are returned. -/
theorem rank_sorted_stable_truncated :
    ∀ (now : Int) (tasks : List Task) (claimedIds inFlight : List String)
      (filter : String),
      rank now tasks claimedIds inFlight filter
          = (topTasks now tasks claimedIds inFlight filter).take 5
      ∧ (rank now tasks claimedIds inFlight filter).length ≤ 5
      ∧ List.Sorted scoreOrder (rank now tasks claimedIds inFlight filter)
      ∧ ∀ s : Int,
          (topTasks now tasks claimedIds inFlight filter).filter (fun p => p.2 == s)
            = (scoredList now
                (filterByPriority (excludePrLinked (excludeClaimed tasks claimedIds) inFlight)
                  filter)).filter (fun p => p.2 == s) := by
  intro now tasks claimedIds inFlight filter
  refine ⟨rfl, ?_, ?_, ?_⟩
  · rw [rank, List.length_take]
    exact min_le_left _ _
  · exact List.Pairwise.sublist (List.take_sublist _ _)
      (List.sorted_insertionSort scoreOrder _)
  · intro s
    exact filter_insertionSort_score s _

/-- C4 counterexample.  An unknown step name is not a hard error: it maps
to the default phase `exploration`, the very phase a valid step name
(`worktree-created`) maps to; and a step name inherited from
`Object.prototype` maps to the truthy inherited member, not to an error
either. -/
theorem mapStepToPhase_unknown_defaults :
    mapStepToPhase "no-such-step" = .str "exploration"
    ∧ "no-such-step" ∉ stepPhaseTable.map Prod.fst
    ∧ mapStepToPhase "worktree-created" = .str "exploration"
    ∧ mapStepToPhase "toString" = .protoMember "toString" := by
  refine ⟨rfl, by decide, rfl, rfl⟩

/-- C4 amended.  The step-to-phase mapping is total and never errors:
every valid step name maps to exactly one next phase per the fixed
table; a step name outside the table that names an `Object.prototype`
member returns that truthy inherited member (`stepToPhase[step]` hits
the prototype chain, so `||` keeps it); every other unknown step name
maps to the default phase `exploration`. -/
theorem mapStepToPhase_table_and_default :
    (∀ p ∈ stepPhaseTable, mapStepToPhase p.1 = .str p.2)
    ∧ (∀ s, s ∉ stepPhaseTable.map Prod.fst → protoKeys.contains s = false →
        mapStepToPhase s = .str "exploration")
    ∧ (∀ s ∈ protoKeys, mapStepToPhase s = .protoMember s) := by
  refine ⟨by decide, ?_, by decide⟩
  intro s hs hp
  simp only [stepPhaseTable, List.map_cons, List.map_nil, List.mem_cons,
    List.mem_singleton, not_or] at hs
  obtain ⟨h1, h2, h3, h4, h5, h6, h7, h8, h9, -⟩ := hs
  have hp' : s ∉ protoKeys := by simpa using hp
  simp [mapStepToPhase, h1, h2, h3, h4, h5, h6, h7, h8, h9, hp']

/-- C4 witness for the amended theorem at concrete inputs. -/
theorem mapStepToPhase_table_and_default_w :
    (("plan-approved", "implementation") ∈ stepPhaseTable
      ∧ mapStepToPhase "plan-approved" = .str "implementation")
    ∧ ("bogus-step" ∉ stepPhaseTable.map Prod.fst
      ∧ protoKeys.contains "bogus-step" = false
      ∧ mapStepToPhase "bogus-step" = .str "exploration")
    ∧ ("toString" ∈ protoKeys
      ∧ mapStepToPhase "toString" = .protoMember "toString") :=
  ⟨⟨by decide, mapStepToPhase_table_and_default.1 ("plan-approved", "implementation") (by decide)⟩,
   ⟨by decide, by decide,
    mapStepToPhase_table_and_default.2.1 "bogus-step" (by decide) (by decide)⟩,
   ⟨by decide, mapStepToPhase_table_and_default.2.2 "toString" (by decide)⟩⟩

/-- C5.  A persisted log whose completed steps are not a prefix of the
canonical order is accepted by the resume path: no `CorruptState` (or
any other) failure occurs; the handler happily derives a resume phase
from the last entry and switches into the worktree. -/
theorem resume_accepts_out_of_order_log :
    validCompletedPrefixB
        { steps := [{ step := "implementation-completed", status := "completed" }] } = false
    ∧ resumeFromStatus
        { steps := [{ step := "implementation-completed", status := "completed" }] }
      = .ok (.str "pre-review-gates")
    ∧ resumeHandler (some "7")
        (some { tasks := [{ id := "7", worktreePath := "wt7", branch := "fix-7" }] }) []
        (fun p => if p = "wt7" then
          some { steps := [{ step := "implementation-completed", status := "completed" }] }
          else none)
        "main"
      = (.resuming (.str "pre-review-gates"), "wt7") := by
  refine ⟨rfl, rfl, rfl⟩

/-- C6 counterexample.  Resume with no argument and two active claims is
not always the explicit no-worktree failure: `t.branch.endsWith(arg)`
with `arg === undefined` coerces the argument to the string
`"undefined"`, so a branch that literally ends in that text is selected
— the handler guesses that claim, switches into its worktree (a
mutation: the working directory changes) and resumes it. -/
theorem resume_no_arg_guesses_undefined_branch :
    2 ≤ (Registry.mk
          [{ id := "1", worktreePath := "w1", branch := "release-undefined" },
           { id := "2", worktreePath := "w2", branch := "b2" }]).tasks.length
    ∧ findWorktreeToResume none
        (some (Registry.mk
          [{ id := "1", worktreePath := "w1", branch := "release-undefined" },
           { id := "2", worktreePath := "w2", branch := "b2" }])) []
      = some { path := "w1",
               task := some { id := "1", worktreePath := "w1",
                              branch := "release-undefined" } }
    ∧ resumeHandler none
        (some (Registry.mk
          [{ id := "1", worktreePath := "w1", branch := "release-undefined" },
           { id := "2", worktreePath := "w2", branch := "b2" }])) []
        (fun p => if p = "w1" then
          some { steps := [{ step := "plan-approved", status := "completed" }] }
          else none)
        "main"
      = (.resuming (.str "implementation"), "w1") := by
  refine ⟨by decide, by decide, by decide⟩

/-- C6 amended.  Resume with no argument while the registry holds two or
more active claims, none of whose branch names ends in the literal text
`undefined`, resolves no worktree: the handler fails explicitly (the
no-worktree outcome) and performs no mutation — the working directory is
unchanged and neither registry nor logs are touched.  The side condition
is forced by the `endsWith(undefined)` coercion shown in the
counterexample. -/
theorem resume_no_arg_multiple_claims :
    ∀ (reg : Registry) (fsPaths : List String) (logs : String → Option StatusLog)
      (cwd : String),
      2 ≤ reg.tasks.length →
      (∀ t ∈ reg.tasks, strEndsWith t.branch "undefined" = false) →
      findWorktreeToResume none (some reg) fsPaths = none
      ∧ resumeHandler none (some reg) fsPaths logs cwd = (.noWorktree, cwd) := by
  intro reg fsPaths logs cwd hlen hbr
  have hfind : findWorktreeToResume none (some reg) fsPaths = none := by
    unfold findWorktreeToResume
    dsimp only
    rw [if_neg (by rintro ⟨-, h⟩; omega)]
    have hf1 : reg.tasks.find? (fun _ => false) = none :=
      List.find?_eq_none.mpr (fun x _ => by simp)
    have hf2 : reg.tasks.find? (fun t => strEndsWith t.branch "undefined") = none :=
      List.find?_eq_none.mpr (fun x hx => by simp [hbr x hx])
    rw [hf1, hf2]
  refine ⟨hfind, ?_⟩
  unfold resumeHandler
  rw [hfind]

/-- C6 witness: a registry with two active claims whose branches do not
end in `undefined`, resolved with no argument. -/
theorem resume_no_arg_multiple_claims_w :
    2 ≤ (Registry.mk [{ id := "1", worktreePath := "w1", branch := "b1" },
                      { id := "2", worktreePath := "w2", branch := "b2" }]).tasks.length
    ∧ resumeHandler none
        (some (Registry.mk [{ id := "1", worktreePath := "w1", branch := "b1" },
                            { id := "2", worktreePath := "w2", branch := "b2" }]))
        [] (fun _ => none) "main"
      = (.noWorktree, "main") :=
  ⟨by decide,
   (resume_no_arg_multiple_claims
     (Registry.mk [{ id := "1", worktreePath := "w1", branch := "b1" },
                   { id := "2", worktreePath := "w2", branch := "b2" }])
     [] (fun _ => none) "main" (by decide) (by decide)).2⟩

/-- C7.  For every non-empty resume argument, `findWorktreeToResume`
coincides with the spec's ordered resolution: exact id match first, then
branch exact-or-suffix match, then literal path existence, first match
wins. -/
theorem resume_arg_resolution_order :
    ∀ (a : String) (reg : Registry) (fsPaths : List String), a ≠ "" →
      findWorktreeToResume (some a) (some reg) fsPaths = resolveArgSpec a reg fsPaths := by
  intro a reg fsPaths ha
  have ht : argTruthy (some a) = true := by
    simp [argTruthy, ha]
  have hcond : ¬(argTruthy (some a) = false ∧ reg.tasks.length = 1) := by
    simp [ht]
  unfold findWorktreeToResume resolveArgSpec
  dsimp only
  rw [if_neg hcond]
  simp [ht]

/-- C7 witness: concrete resolution where only the branch-suffix
interpretation matches. -/
theorem resume_arg_resolution_order_w :
    ("42" : String) ≠ ""
    ∧ findWorktreeToResume (some "42")
        (some (Registry.mk [{ id := "7", worktreePath := "w7", branch := "feat-42" }])) []
      = resolveArgSpec "42"
          (Registry.mk [{ id := "7", worktreePath := "w7", branch := "feat-42" }]) [] :=
  ⟨by decide,
   resume_arg_resolution_order "42"
     (Registry.mk [{ id := "7", worktreePath := "w7", branch := "feat-42" }]) []
     (by decide)⟩

/-- On a filter that does not name an `Object.prototype` member,
`filterByPriorityJs` succeeds and agrees with `filterByPriority`. -/
theorem filterByPriorityJs_ok (tasks : List Task) (filter : String)
    (hp : protoKeys.contains filter = false) :
    filterByPriorityJs tasks filter = .ok (filterByPriority tasks filter) := by
  have hp' : filter ∉ protoKeys := by simpa using hp
  unfold filterByPriorityJs filterByPriority
  by_cases hca : filter = "continue" ∨ filter = "all"
  · rw [if_pos hca, if_pos hca]
  · rw [if_neg hca, if_neg hca, if_neg (by simp [hp'])]

/-- On a prototype-key filter, `LABEL_MAPS[filter]` is a truthy
inherited member and `targetLabels.some` throws. -/
theorem filterByPriorityJs_throws (tasks : List Task) (filter : String)
    (hp : protoKeys.contains filter = true) :
    filterByPriorityJs tasks filter
      = .error "TypeError: targetLabels.some is not a function" := by
  have hca : ¬(filter = "continue" ∨ filter = "all") := by
    rintro (rfl | rfl) <;> exact absurd hp (by decide)
  unfold filterByPriorityJs
  rw [if_neg hca, if_pos hp]

/-- Bridge: on non-prototype filters the pipeline with the full
JavaScript lookup semantics produces exactly `rank`; on a prototype-key
filter it surfaces the `TypeError` and never ranks. -/
theorem rankJs_agrees :
    ∀ (now : Int) (tasks : List Task) (claimedIds inFlight : List String)
      (filter : String),
      (protoKeys.contains filter = false →
        rankJs now tasks claimedIds inFlight filter
          = .ok (rank now tasks claimedIds inFlight filter))
      ∧ (protoKeys.contains filter = true →
        rankJs now tasks claimedIds inFlight filter
          = .error "TypeError: targetLabels.some is not a function") := by
  intro now tasks claimedIds inFlight filter
  constructor
  · intro hp
    unfold rankJs
    rw [filterByPriorityJs_ok _ _ hp]
    rfl
  · intro hp
    unfold rankJs
    rw [filterByPriorityJs_throws _ _ hp]

/-- C9 counterexample.  A selection naming an `Object.prototype` member
is not `(last used)`, not `Custom`/`Other` and not one of the four known
labels, yet none of the three mappers produces its documented default:
`map[selection]` hits the prototype chain, the inherited member is
truthy, and `||` returns it as-is. -/
theorem policy_mapping_proto_lookup :
    mapSource none "toString" none = some (.protoMember "toString")
    ∧ mapSource none "toString" none ≠ some (.config { source := "github" })
    ∧ mapPriority "toString" = .protoMember "toString"
    ∧ mapPriority "toString" ≠ .str "all"
    ∧ mapStopPoint "toString" = .protoMember "toString"
    ∧ mapStopPoint "toString" ≠ .str "merged" := by
  refine ⟨rfl, by decide, rfl, by decide, rfl, by decide⟩

/-- C9 amended.  Policy parsing is total — no unrecognized answer errors
— but the defaults only cover selections that miss `Object.prototype`:
a selection that is not a `(last used)` option, not `Custom`, not
`Other`, not one of the four known labels and not a prototype property
name maps to `{ source: 'github' }`; under the same prototype-miss
condition, an unknown priority maps to `'all'` and an unknown stop point
to `'merged'`; a prototype property name makes all three mappers return
the truthy inherited member as-is. -/
theorem policy_mapping_defaults :
    (∀ (cache : Option JsSource) (selection : String) (cd : Option CustomDetails),
      strContainsSub selection "(last used)" = false →
      selection ≠ "Custom" → selection ≠ "Other" →
      selection ≠ "GitHub Issues" → selection ≠ "GitHub Projects" →
      selection ≠ "GitLab Issues" → selection ≠ "Local tasks.md" →
      protoKeys.contains selection = false →
      mapSource cache selection cd = some (.config { source := "github" }))
    ∧ (∀ s : String, s ≠ "All" → s ≠ "Bugs" → s ≠ "Security" → s ≠ "Features" →
        protoKeys.contains s = false → mapPriority s = .str "all")
    ∧ (∀ s : String, s ≠ "Merged" → s ≠ "PR Created" → s ≠ "Implemented" →
        s ≠ "Deployed" → s ≠ "Production" → protoKeys.contains s = false →
        mapStopPoint s = .str "merged")
    ∧ (∀ (cache : Option JsSource) (cd : Option CustomDetails), ∀ s ∈ protoKeys,
        mapSource cache s cd = some (.protoMember s)
        ∧ mapPriority s = .protoMember s
        ∧ mapStopPoint s = .protoMember s) := by
  refine ⟨?_, ?_, ?_, ?_⟩
  · intro cache selection cd h0 h1 h2 h3 h4 h5 h6 hp
    have hp' : selection ∉ protoKeys := by simpa using hp
    simp [mapSource, sourceMapLookup, h0, h1, h2, h3, h4, h5, h6, hp']
  · intro s h1 h2 h3 h4 hp
    have hp' : s ∉ protoKeys := by simpa using hp
    simp [mapPriority, h1, h2, h3, h4, hp']
  · intro s h1 h2 h3 h4 h5 hp
    have hp' : s ∉ protoKeys := by simpa using hp
    simp [mapStopPoint, h1, h2, h3, h4, h5, hp']
  · intro cache cd s hs
    simp only [protoKeys, List.mem_cons, List.not_mem_nil, or_false] at hs
    rcases hs with rfl | rfl | rfl | rfl | rfl | rfl | rfl | rfl | rfl | rfl | rfl | rfl
      <;> exact ⟨rfl, rfl, rfl⟩

/-- C9 witness at a concrete unrecognized selection and a concrete
prototype property name. -/
theorem policy_mapping_defaults_w :
    (strContainsSub "Something Else" "(last used)" = false
      ∧ protoKeys.contains "Something Else" = false
      ∧ mapSource none "Something Else" none = some (.config { source := "github" }))
    ∧ (mapPriority "Something Else" = .str "all"
      ∧ mapStopPoint "Something Else" = .str "merged")
    ∧ ("toString" ∈ protoKeys
      ∧ mapSource none "toString" none = some (.protoMember "toString")) :=
  ⟨⟨by rfl, by rfl,
    policy_mapping_defaults.1 none "Something Else" none (by rfl) (by decide)
      (by decide) (by decide) (by decide) (by decide) (by decide) (by rfl)⟩,
   ⟨policy_mapping_defaults.2.1 "Something Else" (by decide) (by decide) (by decide)
      (by decide) (by rfl),
    policy_mapping_defaults.2.2.1 "Something Else" (by decide) (by decide) (by decide)
      (by decide) (by decide) (by rfl)⟩,
   ⟨by decide,
    (policy_mapping_defaults.2.2.2 none none "toString" (by decide)).1⟩⟩

/-- C10.  Selecting the `(last used)` source option over an empty cache
makes `parseAndCachePolicy` fail with the `Cached source preference not
found` error before any caching side effect: no policy is returned and
the cache is unchanged. -/
theorem lastUsed_empty_cache_errors :
    ∀ (r : Responses),
      strContainsSub r.source "(last used)" = true →
      parseAndCachePolicy r none =
        (.error "Cached source preference not found. Please select a source.", none) := by
  intro r h
  unfold parseAndCachePolicy
  have hms : mapSource none r.source r.custom = none := by
    simp [mapSource, h]
  rw [hms]

/-- C10 witness at the concrete cached-option label. -/
theorem lastUsed_empty_cache_errors_w :
    strContainsSub "GitHub (last used)" "(last used)" = true
    ∧ parseAndCachePolicy
        { source := "GitHub (last used)", priority := "All", stopPoint := "Merged" } none
      = (.error "Cached source preference not found. Please select a source.", none) :=
  ⟨by rfl,
   lastUsed_empty_cache_errors
     { source := "GitHub (last used)", priority := "All", stopPoint := "Merged" }
     (by rfl)⟩

theorem takeWhile_append_all {α : Type} (p : α → Bool) {a : List α} (b : List α)
    (h : ∀ x ∈ a, p x = true) :
    (a ++ b).takeWhile p = a ++ b.takeWhile p := by
  induction a with
  | nil => simp
  | cons x xs ih =>
    have hx : p x = true := h x (by simp)
    simp only [List.cons_append, List.takeWhile_cons, hx, if_true]
    rw [ih (fun y hy => h y (by simp [hy]))]

theorem dropWhile_append_all {α : Type} (p : α → Bool) {a : List α} (b : List α)
    (h : ∀ x ∈ a, p x = true) :
    (a ++ b).dropWhile p = b.dropWhile p := by
  induction a with
  | nil => simp
  | cons x xs ih =>
    have hx : p x = true := h x (by simp)
    simp only [List.cons_append, List.dropWhile_cons, hx, if_true]
    exact ih (fun y hy => h y (by simp [hy]))

theorem head_dropWhile_false {α : Type} (p : α → Bool) (l : List α) :
    ∀ c, (l.dropWhile p).head? = some c → p c = false := by
  induction l with
  | nil => intro c h; simp at h
  | cons x xs ih =>
    intro c h
    rw [List.dropWhile_cons] at h
    by_cases hx : p x = true
    · rw [if_pos hx] at h
      exact ih c h
    · rw [if_neg hx] at h
      simp only [List.head?_cons, Option.some.injEq] at h
      subst h
      exact Bool.not_eq_true _ ▸ hx

/-- String extensionality through `String.mk`. -/
theorem stringMk_data (d : String) : String.mk d.data = d := rfl

theorem branchIssue_eq_some_iff (branch d : String) :
    branchIssue branch = some d ↔ BranchRef branch d := by
  constructor
  · intro h
    unfold branchIssue at h
    set rev := branch.data.reverse with hrev
    by_cases hc : rev.takeWhile Char.isDigit ≠ []
        ∧ (rev.dropWhile Char.isDigit).head? = some '-'
    · rw [if_pos hc] at h
      obtain ⟨hne, hhead⟩ := hc
      simp only [Option.some.injEq] at h
      have hd : d.data = (rev.takeWhile Char.isDigit).reverse := by
        rw [← h]
      obtain ⟨tl, htl⟩ : ∃ tl, rev.dropWhile Char.isDigit = '-' :: tl := by
        cases hrest : rev.dropWhile Char.isDigit with
        | nil => rw [hrest] at hhead; simp at hhead
        | cons y ys =>
          rw [hrest] at hhead
          simp only [List.head?_cons, Option.some.injEq] at hhead
          exact ⟨ys, by rw [hhead]⟩
      refine ⟨?_, ?_, ⟨tl.reverse, ?_⟩⟩
      · rw [hd]
        simpa using hne
      · intro c hcmem
        rw [hd] at hcmem
        exact List.mem_takeWhile_imp (List.mem_reverse.mp hcmem)
      · have hsplit : rev = rev.takeWhile Char.isDigit ++ ('-' :: tl) := by
          rw [← htl, List.takeWhile_append_dropWhile]
        have : branch.data = rev.reverse := by simp [hrev]
        rw [this, hsplit]
        simp [hd, List.reverse_append]
    · rw [if_neg hc] at h
      exact absurd h (by simp)
  · rintro ⟨hne, hdig, pre, hsplit⟩
    unfold branchIssue
    have hrev : branch.data.reverse = d.data.reverse ++ ('-' :: pre.reverse) := by
      rw [hsplit]
      simp [List.reverse_append]
    have htw : branch.data.reverse.takeWhile Char.isDigit = d.data.reverse := by
      rw [hrev, takeWhile_append_all Char.isDigit _ (fun x hx =>
        hdig x (List.mem_reverse.mp hx))]
      rw [List.takeWhile_cons]
      simp
    have hdw : branch.data.reverse.dropWhile Char.isDigit = '-' :: pre.reverse := by
      rw [hrev, dropWhile_append_all Char.isDigit _ (fun x hx =>
        hdig x (List.mem_reverse.mp hx))]
      rw [List.dropWhile_cons]
      simp
    rw [if_pos ⟨by simp [htw, hne], by simp [hdw]⟩]
    rw [htw]
    simp [stringMk_data]

theorem parenMatchAt_eq_some_iff (s : List Char) (d : String) :
    parenMatchAt s = some d ↔
      (d.data ≠ [] ∧ (∀ c ∈ d.data, Char.isDigit c = true) ∧
        ∃ rest, s = '(' :: '#' :: (d.data ++ ')' :: rest)) := by
  constructor
  · intro h
    cases s with
    | nil => simp [parenMatchAt] at h
    | cons a s1 =>
      cases s1 with
      | nil => simp [parenMatchAt] at h
      | cons b rest =>
        simp only [parenMatchAt] at h
        by_cases hab : a = '(' ∧ b = '#'
        · rw [if_pos hab] at h
          by_cases hcond : rest.takeWhile Char.isDigit ≠ []
              ∧ (rest.dropWhile Char.isDigit).head? = some ')'
          · rw [if_pos hcond] at h
            obtain ⟨hne, hhead⟩ := hcond
            have hd : d.data = rest.takeWhile Char.isDigit := by
              rw [← Option.some.inj h]
            obtain ⟨tail, htail⟩ : ∃ tail, rest.dropWhile Char.isDigit = ')' :: tail := by
              cases hrest : rest.dropWhile Char.isDigit with
              | nil => rw [hrest] at hhead; simp at hhead
              | cons y ys =>
                rw [hrest] at hhead
                simp only [List.head?_cons, Option.some.injEq] at hhead
                exact ⟨ys, by rw [hhead]⟩
            refine ⟨by rw [hd]; exact hne, ?_, ⟨tail, ?_⟩⟩
            · intro c hc
              rw [hd] at hc
              exact List.mem_takeWhile_imp hc
            · rw [hab.1, hab.2]
              have : rest = rest.takeWhile Char.isDigit ++ (')' :: tail) := by
                conv_lhs => rw [← List.takeWhile_append_dropWhile (p := Char.isDigit) (l := rest)]
                rw [htail]
              rw [this, hd]
          · rw [if_neg hcond] at h
            exact absurd h (by simp)
        · rw [if_neg hab] at h
          exact absurd h (by simp)
  · rintro ⟨hne, hdig, rest, hs⟩
    have htw : (d.data ++ ')' :: rest).takeWhile Char.isDigit = d.data := by
      rw [takeWhile_append_all Char.isDigit _ hdig, List.takeWhile_cons]
      simp
    have hdw : (d.data ++ ')' :: rest).dropWhile Char.isDigit = ')' :: rest := by
      rw [dropWhile_append_all Char.isDigit _ hdig, List.dropWhile_cons]
      simp
    rw [hs]
    simp [parenMatchAt, htw, hdw, hne, stringMk_data]

/-- No `(#N)` match can start strictly inside another: every char of the
matched span after its opening `(` is `#`, a digit or `)`. -/
theorem title_no_inner_start (D : List Char) (hdig : ∀ c ∈ D, Char.isDigit c = true)
    (pre w : List Char) (hpre : pre ≠ [])
    (h : '(' :: '#' :: (D ++ [')']) = pre ++ '(' :: w) : False := by
  obtain ⟨p0, pre', hp⟩ : ∃ p0 pre', pre = p0 :: pre' := by
    cases pre with
    | nil => exact absurd rfl hpre
    | cons x xs => exact ⟨x, xs, rfl⟩
  subst hp
  simp only [List.cons_append, List.cons.injEq] at h
  obtain ⟨hp0, htail⟩ := h
  have hmem : '(' ∈ ('#' :: (D ++ [')'])) := by
    rw [htail]
    exact List.mem_append_right _ (by simp)
  simp only [List.mem_cons, List.mem_append, List.mem_singleton] at hmem
  rcases hmem with h1 | h2 | h3
  · exact absurd h1 (by decide)
  · have := hdig '(' h2
    simp at this
  · exact absurd h3 (by decide)

theorem titleScanAux_mem_iff (d : String) :
    ∀ (fuel : Nat) (s : List Char), s.length < fuel →
      (d ∈ titleScanAux fuel s ↔ OccTitle s d) := by
  intro fuel
  induction fuel with
  | zero => intro s h; omega
  | succ fuel ih =>
    intro s hlen
    cases s with
    | nil =>
      simp only [titleScanAux]
      constructor
      · intro h; simp at h
      · rintro ⟨hne, hdig, pre, post, hs⟩
        have h0 := congrArg List.length hs
        simp only [List.length_nil, List.length_append, List.length_cons] at h0
        omega
    | cons c rest =>
      rw [titleScanAux]
      cases hm : parenMatchAt (c :: rest) with
      | none =>
        have hlen1 : rest.length < fuel := by
          simp only [List.length_cons] at hlen
          omega
        rw [ih rest hlen1]
        constructor
        · rintro ⟨hne, hdig, pre, post, hs⟩
          exact ⟨hne, hdig, c :: pre, post, by rw [hs]; simp⟩
        · rintro ⟨hne, hdig, pre, post, hs⟩
          cases pre with
          | nil =>
            exfalso
            have hsome : parenMatchAt (c :: rest) = some d :=
              (parenMatchAt_eq_some_iff _ _).mpr ⟨hne, hdig, post, by simpa using hs⟩
            rw [hm] at hsome
            exact absurd hsome (by simp)
          | cons p ps =>
            simp only [List.cons_append, List.cons.injEq] at hs
            exact ⟨hne, hdig, ps, post, hs.2⟩
      | some d₀ =>
        obtain ⟨hne₀, hdig₀, tail₀, hs₀⟩ := (parenMatchAt_eq_some_iff _ _).mp hm
        have hspan : c :: rest = ('(' :: '#' :: (d₀.data ++ [')'])) ++ tail₀ := by
          rw [hs₀]; simp
        have hspanlen : ('(' :: '#' :: (d₀.data ++ [')'])).length = d₀.data.length + 3 := by
          simp
        have hdropn : (c :: rest).drop (d₀.data.length + 3) = tail₀ := by
          rw [hspan, ← hspanlen, List.drop_left]
        have hlen2 : tail₀.length < fuel := by
          have h1 := congrArg List.length hspan
          simp only [List.length_cons, List.length_append, hspanlen] at h1 hlen
          omega
        simp only [List.mem_cons, hdropn, ih tail₀ hlen2]
        constructor
        · rintro (rfl | ⟨hne, hdig, pre, post, hs⟩)
          · exact ⟨hne₀, hdig₀, [], tail₀, by simpa using hs₀⟩
          · refine ⟨hne, hdig, ('(' :: '#' :: (d₀.data ++ [')'])) ++ pre, post, ?_⟩
            rw [hspan, hs]
            simp
        · rintro ⟨hne, hdig, pre, post, hs⟩
          cases pre with
          | nil =>
            left
            have hsome : parenMatchAt (c :: rest) = some d :=
              (parenMatchAt_eq_some_iff _ _).mpr ⟨hne, hdig, post, by simpa using hs⟩
            rw [hm] at hsome
            exact (Option.some.inj hsome).symm
          | cons p ps =>
            right
            have hcmp : (p :: ps) ++ '(' :: '#' :: (d.data ++ ')' :: post)
                = ('(' :: '#' :: (d₀.data ++ [')'])) ++ tail₀ := by
              rw [← hs, ← hspan]
            rcases List.append_eq_append_iff.mp hcmp.symm with ⟨w, hw1, hw2⟩ | ⟨w, hw1, hw2⟩
            · -- p :: ps = span ++ w : the occurrence lies inside tail₀
              refine ⟨hne, hdig, w, post, ?_⟩
              have : tail₀ = w ++ '(' :: '#' :: (d.data ++ ')' :: post) := hw2
              rw [this]
            · -- span = (p :: ps) ++ w : the occurrence would start inside the span
              cases hwcase : w with
              | nil =>
                subst hwcase
                simp only [List.append_nil] at hw1
                simp only [List.nil_append] at hw2
                exact ⟨hne, hdig, [], post, by simp [← hw2]⟩
              | cons w0 w' =>
                subst hwcase
                exfalso
                have hw0 : w0 = '(' := by
                  have := congrArg List.head? hw2
                  simpa using this.symm
                subst hw0
                exact title_no_inner_start d₀.data hdig₀ (p :: ps) w' (by simp) hw1

theorem listPrefixB_head_ne (a b : Char) (as bs : List Char) (h : (a == b) = false) :
    listPrefixB (a :: as) (b :: bs) = false := by
  simp [listPrefixB, h]

/-- The nine keyword variants are nonempty, all word chars, and start
with `c`, `f` or `r`. -/
theorem kwVariants_facts :
    ∀ kw ∈ kwVariants, kw ≠ [] ∧ (∀ c ∈ kw, isWordChar c = true) ∧
      (kw.head? = some 'c' ∨ kw.head? = some 'f' ∨ kw.head? = some 'r') := by
  decide

theorem tryKeyword_eq_some (s : List Char) (k : Nat) (h : tryKeyword s = some k) :
    ∃ kw t, s = kw ++ t ∧ kw ∈ kwVariants ∧ kw.length = k := by
  unfold tryKeyword at h
  by_cases h1 : listPrefixB "close".data s = true
  · rw [if_pos h1] at h
    obtain ⟨t, rfl⟩ := (listPrefixB_iff _ _).mp h1
    have hdrop : ("close".data ++ t).drop 5 = t := by
      have h5 : (5 : Nat) = ("close".data).length := rfl
      rw [h5, List.drop_left]
    rw [hdrop] at h
    by_cases hsd : sdSuffix t = true
    · rw [if_pos hsd] at h
      obtain ⟨c, t', rfl⟩ : ∃ c t', t = c :: t' := by
        cases t with
        | nil => simp [sdSuffix] at hsd
        | cons x xs => exact ⟨x, xs, rfl⟩
      have hc : c = 's' ∨ c = 'd' := by
        simpa [sdSuffix] using hsd
      have hk := Option.some.inj h
      rcases hc with rfl | rfl
      · refine ⟨"closes".data, t', ?_, by decide, by rw [← hk]; rfl⟩
        show "close".data ++ 's' :: t' = "closes".data ++ t'
        rfl
      · refine ⟨"closed".data, t', ?_, by decide, by rw [← hk]; rfl⟩
        show "close".data ++ 'd' :: t' = "closed".data ++ t'
        rfl
    · rw [if_neg hsd] at h
      have hk := Option.some.inj h
      exact ⟨"close".data, t, rfl, by decide, by rw [← hk]; rfl⟩
  · rw [if_neg h1] at h
    by_cases h2 : listPrefixB "fix".data s = true
    · rw [if_pos h2] at h
      obtain ⟨t, rfl⟩ := (listPrefixB_iff _ _).mp h2
      have hdrop : ("fix".data ++ t).drop 3 = t := by
        have h3 : (3 : Nat) = ("fix".data).length := rfl
        rw [h3, List.drop_left]
      rw [hdrop] at h
      by_cases hesd : esdSuffix t = true
      · rw [if_pos hesd] at h
        obtain ⟨a, b, t', rfl⟩ : ∃ a b t', t = a :: b :: t' := by
          cases t with
          | nil => simp [esdSuffix] at hesd
          | cons x xs =>
            cases xs with
            | nil => simp [esdSuffix] at hesd
            | cons y ys => exact ⟨x, y, ys, rfl⟩
        have hab : a = 'e' ∧ (b = 's' ∨ b = 'd') := by
          simpa [esdSuffix] using hesd
        have hk := Option.some.inj h
        obtain ⟨rfl, hb⟩ := hab
        rcases hb with rfl | rfl
        · refine ⟨"fixes".data, t', ?_, by decide, by rw [← hk]; rfl⟩
          show "fix".data ++ 'e' :: 's' :: t' = "fixes".data ++ t'
          rfl
        · refine ⟨"fixed".data, t', ?_, by decide, by rw [← hk]; rfl⟩
          show "fix".data ++ 'e' :: 'd' :: t' = "fixed".data ++ t'
          rfl
      · rw [if_neg hesd] at h
        have hk := Option.some.inj h
        exact ⟨"fix".data, t, rfl, by decide, by rw [← hk]; rfl⟩
    · rw [if_neg h2] at h
      by_cases h3 : listPrefixB "resolve".data s = true
      · rw [if_pos h3] at h
        obtain ⟨t, rfl⟩ := (listPrefixB_iff _ _).mp h3
        have hdrop : ("resolve".data ++ t).drop 7 = t := by
          have h7 : (7 : Nat) = ("resolve".data).length := rfl
          rw [h7, List.drop_left]
        rw [hdrop] at h
        by_cases hsd : sdSuffix t = true
        · rw [if_pos hsd] at h
          obtain ⟨c, t', rfl⟩ : ∃ c t', t = c :: t' := by
            cases t with
            | nil => simp [sdSuffix] at hsd
            | cons x xs => exact ⟨x, xs, rfl⟩
          have hc : c = 's' ∨ c = 'd' := by
            simpa [sdSuffix] using hsd
          have hk := Option.some.inj h
          rcases hc with rfl | rfl
          · refine ⟨"resolves".data, t', ?_, by decide, by rw [← hk]; rfl⟩
            show "resolve".data ++ 's' :: t' = "resolves".data ++ t'
            rfl
          · refine ⟨"resolved".data, t', ?_, by decide, by rw [← hk]; rfl⟩
            show "resolve".data ++ 'd' :: t' = "resolved".data ++ t'
            rfl
        · rw [if_neg hsd] at h
          have hk := Option.some.inj h
          exact ⟨"resolve".data, t, rfl, by decide, by rw [← hk]; rfl⟩
      · rw [if_neg h3] at h
        exact absurd h (by simp)

theorem sdSuffix_false_of_space (r : List Char)
    (hhead : ∀ c, r.head? = some c → isJsSpace c = true) :
    sdSuffix r = false := by
  cases r with
  | nil => rfl
  | cons c r' =>
    have hc := hhead c rfl
    have hs : (c == 's') = false := by
      rw [beq_eq_false_iff_ne]
      intro hcontra
      subst hcontra
      exact absurd hc (by decide)
    have hd : (c == 'd') = false := by
      rw [beq_eq_false_iff_ne]
      intro hcontra
      subst hcontra
      exact absurd hc (by decide)
    simp [sdSuffix, hs, hd]

theorem esdSuffix_false_of_space (r : List Char)
    (hhead : ∀ c, r.head? = some c → isJsSpace c = true) :
    esdSuffix r = false := by
  cases r with
  | nil => rfl
  | cons a r' =>
    have ha := hhead a rfl
    have he : (a == 'e') = false := by
      rw [beq_eq_false_iff_ne]
      intro hcontra
      subst hcontra
      exact absurd ha (by decide)
    cases r' with
    | nil => rfl
    | cons b r'' => simp [esdSuffix, he]

theorem tryKeyword_append_kw (kw r : List Char) (hkw : kw ∈ kwVariants)
    (hhead : ∀ c, r.head? = some c → isJsSpace c = true) :
    tryKeyword (kw ++ r) = some kw.length := by
  have hnc : ∀ (x : List Char), listPrefixB "close".data ('f' :: x) = false := by
    intro x
    show listPrefixB ('c' :: "lose".data) ('f' :: x) = false
    exact listPrefixB_head_ne _ _ _ _ (by decide)
  have hnc2 : ∀ (x : List Char), listPrefixB "close".data ('r' :: x) = false := by
    intro x
    show listPrefixB ('c' :: "lose".data) ('r' :: x) = false
    exact listPrefixB_head_ne _ _ _ _ (by decide)
  have hnf : ∀ (x : List Char), listPrefixB "fix".data ('r' :: x) = false := by
    intro x
    show listPrefixB ('f' :: "ix".data) ('r' :: x) = false
    exact listPrefixB_head_ne _ _ _ _ (by decide)
  have hkw9 : kw = "close".data ∨ kw = "closes".data ∨ kw = "closed".data
      ∨ kw = "fix".data ∨ kw = "fixes".data ∨ kw = "fixed".data
      ∨ kw = "resolve".data ∨ kw = "resolves".data ∨ kw = "resolved".data := by
    simpa [kwVariants] using hkw
  have hdropc : ∀ (x : List Char), ("close".data ++ x).drop 5 = x := by
    intro x
    have h5 : (5 : Nat) = ("close".data).length := rfl
    rw [h5, List.drop_left]
  have hdropf : ∀ (x : List Char), ("fix".data ++ x).drop 3 = x := by
    intro x
    have h3 : (3 : Nat) = ("fix".data).length := rfl
    rw [h3, List.drop_left]
  have hdropr : ∀ (x : List Char), ("resolve".data ++ x).drop 7 = x := by
    intro x
    have h7 : (7 : Nat) = ("resolve".data).length := rfl
    rw [h7, List.drop_left]
  rcases hkw9 with rfl | rfl | rfl | rfl | rfl | rfl | rfl | rfl | rfl
  · unfold tryKeyword
    rw [if_pos ((listPrefixB_iff _ _).mpr ⟨r, rfl⟩), hdropc r,
      sdSuffix_false_of_space r hhead]
    rfl
  · have heq : "closes".data ++ r = "close".data ++ ('s' :: r) := rfl
    unfold tryKeyword
    rw [heq, if_pos ((listPrefixB_iff _ _).mpr ⟨'s' :: r, rfl⟩), hdropc ('s' :: r)]
    rfl
  · have heq : "closed".data ++ r = "close".data ++ ('d' :: r) := rfl
    unfold tryKeyword
    rw [heq, if_pos ((listPrefixB_iff _ _).mpr ⟨'d' :: r, rfl⟩), hdropc ('d' :: r)]
    rfl
  · have heq : "fix".data ++ r = 'f' :: ("ix".data ++ r) := rfl
    unfold tryKeyword
    rw [heq, if_neg (by rw [hnc]; simp), ← heq,
      if_pos ((listPrefixB_iff _ _).mpr ⟨r, rfl⟩), hdropf r,
      esdSuffix_false_of_space r hhead]
    rfl
  · have heq : "fixes".data ++ r = 'f' :: ("ix".data ++ ('e' :: 's' :: r)) := rfl
    have heq2 : "fixes".data ++ r = "fix".data ++ ('e' :: 's' :: r) := rfl
    unfold tryKeyword
    rw [heq, if_neg (by rw [hnc]; simp), ← heq, heq2,
      if_pos ((listPrefixB_iff _ _).mpr ⟨'e' :: 's' :: r, rfl⟩), hdropf ('e' :: 's' :: r)]
    rfl
  · have heq : "fixed".data ++ r = 'f' :: ("ix".data ++ ('e' :: 'd' :: r)) := rfl
    have heq2 : "fixed".data ++ r = "fix".data ++ ('e' :: 'd' :: r) := rfl
    unfold tryKeyword
    rw [heq, if_neg (by rw [hnc]; simp), ← heq, heq2,
      if_pos ((listPrefixB_iff _ _).mpr ⟨'e' :: 'd' :: r, rfl⟩), hdropf ('e' :: 'd' :: r)]
    rfl
  · have heq : "resolve".data ++ r = 'r' :: ("esolve".data ++ r) := rfl
    unfold tryKeyword
    rw [heq, if_neg (by rw [hnc2]; simp), if_neg (by rw [hnf]; simp), ← heq,
      if_pos ((listPrefixB_iff _ _).mpr ⟨r, rfl⟩), hdropr r,
      sdSuffix_false_of_space r hhead]
    rfl
  · have heq : "resolves".data ++ r = 'r' :: ("esolve".data ++ ('s' :: r)) := rfl
    have heq2 : "resolves".data ++ r = "resolve".data ++ ('s' :: r) := rfl
    unfold tryKeyword
    rw [heq, if_neg (by rw [hnc2]; simp), if_neg (by rw [hnf]; simp), ← heq, heq2,
      if_pos ((listPrefixB_iff _ _).mpr ⟨'s' :: r, rfl⟩), hdropr ('s' :: r)]
    rfl
  · have heq : "resolved".data ++ r = 'r' :: ("esolve".data ++ ('d' :: r)) := rfl
    have heq2 : "resolved".data ++ r = "resolve".data ++ ('d' :: r) := rfl
    unfold tryKeyword
    rw [heq, if_neg (by rw [hnc2]; simp), if_neg (by rw [hnf]; simp), ← heq, heq2,
      if_pos ((listPrefixB_iff _ _).mpr ⟨'d' :: r, rfl⟩), hdropr ('d' :: r)]
    rfl

theorem tryKeyword_head_mem (c : Char) (s : List Char) (k : Nat)
    (h : tryKeyword (c :: s) = some k) : c = 'c' ∨ c = 'f' ∨ c = 'r' := by
  obtain ⟨kw, t, heq, hkw, -⟩ := tryKeyword_eq_some _ _ h
  obtain ⟨hne, -, hhead⟩ := kwVariants_facts kw hkw
  obtain ⟨k0, kw', rfl⟩ : ∃ k0 kw', kw = k0 :: kw' := by
    cases kw with
    | nil => exact absurd rfl hne
    | cons x xs => exact ⟨x, xs, rfl⟩
  simp only [List.cons_append, List.cons.injEq] at heq
  simp only [List.head?_cons, Option.some.injEq] at hhead
  rcases hhead with h1 | h1 | h1 <;> rw [heq.1, h1]
  · exact Or.inl rfl
  · exact Or.inr (Or.inl rfl)
  · exact Or.inr (Or.inr rfl)

theorem takeWhile_append_stop {α : Type} (p : α → Bool) {a b : List α}
    (ha : ∀ x ∈ a, p x = true) (hb : ∀ c, b.head? = some c → p c = false) :
    (a ++ b).takeWhile p = a := by
  rw [takeWhile_append_all p b ha]
  cases b with
  | nil => simp
  | cons c bs =>
    rw [List.takeWhile_cons, if_neg (by simp [hb c rfl])]
    simp

theorem dropWhile_append_stop {α : Type} (p : α → Bool) {a b : List α}
    (ha : ∀ x ∈ a, p x = true) (hb : ∀ c, b.head? = some c → p c = false) :
    (a ++ b).dropWhile p = b := by
  rw [dropWhile_append_all p b ha]
  cases b with
  | nil => simp
  | cons c bs =>
    rw [List.dropWhile_cons, if_neg (by simp [hb c rfl])]

theorem mBody_eq_some_iff (s : List Char) (d : String) (n : Nat) :
    mBody s = some (d, n) ↔ MShape s d n := by
  constructor
  · intro h
    unfold mBody at h
    cases htk : tryKeyword s with
    | none => rw [htk] at h; simp at h
    | some k =>
      rw [htk] at h
      have h' : mBodyAfter k s = some (d, n) := h
      obtain ⟨kw, t, hst, hkw, hlen⟩ := tryKeyword_eq_some s k htk
      subst hst
      have hdropk : (kw ++ t).drop k = t := by rw [← hlen, List.drop_left]
      unfold mBodyAfter at h'
      rw [hdropk] at h'
      by_cases hc1 : t.takeWhile isJsSpace ≠ [] ∧ (t.dropWhile isJsSpace).head? = some '#'
      · rw [if_pos hc1] at h'
        obtain ⟨hspne, hhash⟩ := hc1
        obtain ⟨after, hafter⟩ : ∃ after, t.dropWhile isJsSpace = '#' :: after := by
          cases hdwc : t.dropWhile isJsSpace with
          | nil => rw [hdwc] at hhash; simp at hhash
          | cons y ys =>
            rw [hdwc] at hhash
            simp only [List.head?_cons, Option.some.injEq] at hhash
            exact ⟨ys, by rw [hhash]⟩
        rw [hafter] at h'
        simp only [List.tail_cons] at h'
        by_cases hc2 : after.takeWhile Char.isDigit ≠ []
        · rw [if_pos hc2] at h'
          have hpair := Option.some.inj h'
          have hd1 := congrArg Prod.fst hpair
          have hn1 := congrArg Prod.snd hpair
          simp only [] at hd1 hn1
          have hdd : d.data = after.takeWhile Char.isDigit := by
            rw [← hd1]
          have hnn : n = k + (t.takeWhile isJsSpace).length + 1
              + (after.takeWhile Char.isDigit).length := by
            rw [← hn1]
          refine ⟨kw, t.takeWhile isJsSpace, after.dropWhile Char.isDigit,
            ?_, hkw, hspne, ?_, ?_, ?_, ?_, ?_⟩
          · have hafter2 : after = after.takeWhile Char.isDigit ++ after.dropWhile Char.isDigit :=
              (List.takeWhile_append_dropWhile _ _).symm
            rw [hdd, ← hafter2, ← hafter, List.takeWhile_append_dropWhile]
          · intro c hc
            exact List.mem_takeWhile_imp hc
          · rw [hdd]
            exact hc2
          · intro c hc
            rw [hdd] at hc
            exact List.mem_takeWhile_imp hc
          · exact head_dropWhile_false Char.isDigit after
          · rw [hnn, hdd, hlen]
        · rw [if_neg hc2] at h'
          exact absurd h' (by simp)
      · rw [if_neg hc1] at h'
        exact absurd h' (by simp)
  · rintro ⟨kw, sp, rest, hs, hkw, hspne, hsp, hdne, hdig, hrest, hn⟩
    subst hs
    have hsphead : ∀ c, (sp ++ '#' :: (d.data ++ rest)).head? = some c →
        isJsSpace c = true := by
      obtain ⟨c0, sp', rfl⟩ : ∃ c0 sp', sp = c0 :: sp' := by
        cases sp with
        | nil => exact absurd rfl hspne
        | cons x xs => exact ⟨x, xs, rfl⟩
      intro c hc
      simp only [List.cons_append, List.head?_cons, Option.some.injEq] at hc
      rw [← hc]
      exact hsp c0 (by simp)
    have htk : tryKeyword (kw ++ (sp ++ '#' :: (d.data ++ rest))) = some kw.length :=
      tryKeyword_append_kw _ _ hkw hsphead
    unfold mBody
    rw [htk]
    have hgoal : mBodyAfter kw.length (kw ++ (sp ++ '#' :: (d.data ++ rest)))
        = some (d, n) := by
      unfold mBodyAfter
      have hdropk : (kw ++ (sp ++ '#' :: (d.data ++ rest))).drop kw.length
          = sp ++ '#' :: (d.data ++ rest) := List.drop_left _ _
      rw [hdropk]
      have htw : (sp ++ '#' :: (d.data ++ rest)).takeWhile isJsSpace = sp :=
        takeWhile_append_stop isJsSpace hsp
          (fun c hc => by
            simp only [List.head?_cons, Option.some.injEq] at hc
            rw [← hc]
            decide)
      have hdw : (sp ++ '#' :: (d.data ++ rest)).dropWhile isJsSpace
          = '#' :: (d.data ++ rest) :=
        dropWhile_append_stop isJsSpace hsp
          (fun c hc => by
            simp only [List.head?_cons, Option.some.injEq] at hc
            rw [← hc]
            decide)
      rw [htw, hdw]
      simp only [List.tail_cons]
      have htd : (d.data ++ rest).takeWhile Char.isDigit = d.data :=
        takeWhile_append_stop Char.isDigit hdig hrest
      rw [htd]
      rw [if_pos ⟨hspne, rfl⟩, if_pos hdne]
      rw [hn]
    exact hgoal

theorem mBody_head_mem (c : Char) (s : List Char) (x : String × Nat)
    (h : mBody (c :: s) = some x) : c = 'c' ∨ c = 'f' ∨ c = 'r' := by
  unfold mBody at h
  cases htk : tryKeyword (c :: s) with
  | none => rw [htk] at h; simp at h
  | some k => exact tryKeyword_head_mem c s k htk

theorem mem_of_getLast_some {α : Type} {l : List α} {a : α}
    (h : l.getLast? = some a) : a ∈ l := by
  have hne : l ≠ [] := by rintro rfl; simp at h
  rw [List.getLast?_eq_getLast l hne] at h
  simp only [Option.some.injEq] at h
  rw [← h]
  exact List.getLast_mem _

theorem digit_isWordChar (c : Char) (h : Char.isDigit c = true) :
    isWordChar c = true := by
  simp [isWordChar, Char.isAlphanum, h]

theorem space_not_kwhead (c : Char) (h : isJsSpace c = true) :
    ¬(c = 'c' ∨ c = 'f' ∨ c = 'r') := by
  rintro (rfl | rfl | rfl) <;> exact absurd h (by decide)

theorem digit_not_kwhead (c : Char) (h : Char.isDigit c = true) :
    ¬(c = 'c' ∨ c = 'f' ∨ c = 'r') := by
  rintro (rfl | rfl | rfl) <;> exact absurd h (by decide)

/-- No closing-keyword match can start strictly inside another match's
span: inside the span, either the preceding char is a word char (no
boundary) or the char there cannot begin a keyword. -/
theorem body_no_inner_start
    (kw sp D : List Char) (hkw : kw ∈ kwVariants) (hspne : sp ≠ [])
    (hsp : ∀ c ∈ sp, isJsSpace c = true) (hD : ∀ c ∈ D, Char.isDigit c = true)
    (pre w : List Char) (hpre : pre ≠ [])
    (hwhead : ∃ c, w.head? = some c ∧ (c = 'c' ∨ c = 'f' ∨ c = 'r'))
    (hlast : ∀ c, pre.getLast? = some c → isWordChar c = false)
    (heq : kw ++ (sp ++ '#' :: D) = pre ++ w) : False := by
  obtain ⟨ch, hch, hch3⟩ := hwhead
  rcases List.append_eq_append_iff.mp heq with ⟨u, hu1, hu2⟩ | ⟨u, hu1, hu2⟩
  · -- pre = kw ++ u, sp ++ '#' :: D = u ++ w
    rcases List.append_eq_append_iff.mp hu2 with ⟨v, hv1, hv2⟩ | ⟨v, hv1, hv2⟩
    · -- u = sp ++ v, '#' :: D = v ++ w
      cases v with
      | nil =>
        simp only [List.nil_append] at hv2
        rw [← hv2] at hch
        simp only [List.head?_cons, Option.some.injEq] at hch
        rcases hch3 with rfl | rfl | rfl <;> exact absurd hch (by decide)
      | cons v0 v' =>
        simp only [List.cons_append, List.cons.injEq] at hv2
        obtain ⟨-, hD2⟩ := hv2
        obtain ⟨w0, w', rfl⟩ : ∃ w0 w', w = w0 :: w' := by
          cases w with
          | nil => simp at hch
          | cons x xs => exact ⟨x, xs, rfl⟩
        simp only [List.head?_cons, Option.some.injEq] at hch
        have hmem : ch ∈ D := by
          have hw0 : w0 ∈ D := by
            rw [hD2]
            exact List.mem_append_right _ (by simp)
          rwa [hch] at hw0
        exact digit_not_kwhead ch (hD ch hmem) hch3
    · -- sp = u ++ v, w = v ++ '#' :: D
      cases v with
      | nil =>
        simp only [List.nil_append] at hv2
        rw [hv2] at hch
        simp only [List.head?_cons, Option.some.injEq] at hch
        rcases hch3 with rfl | rfl | rfl <;> exact absurd hch (by decide)
      | cons v0 v' =>
        rw [hv2] at hch
        simp only [List.cons_append, List.head?_cons, Option.some.injEq] at hch
        have hmem : ch ∈ sp := by
          have hv0 : v0 ∈ sp := by
            rw [hv1]
            exact List.mem_append_right _ (by simp)
          rwa [hch] at hv0
        exact space_not_kwhead ch (hsp ch hmem) hch3
  · -- kw = pre ++ u, w = u ++ (sp ++ '#' :: D)
    cases u with
    | nil =>
      simp only [List.append_nil] at hu1
      simp only [List.nil_append] at hu2
      obtain ⟨s0, sp', rfl⟩ : ∃ s0 sp', sp = s0 :: sp' := by
        cases sp with
        | nil => exact absurd rfl hspne
        | cons x xs => exact ⟨x, xs, rfl⟩
      rw [hu2] at hch
      simp only [List.cons_append, List.head?_cons, Option.some.injEq] at hch
      have hmem : ch ∈ s0 :: sp' := by
        rw [← hch]
        simp
      exact space_not_kwhead ch (hsp ch hmem) hch3
    | cons u0 u' =>
      obtain ⟨c0, hc0⟩ : ∃ c0, pre.getLast? = some c0 := by
        cases hg : pre.getLast? with
        | none => exact absurd (List.getLast?_eq_none_iff.mp hg) hpre
        | some x => exact ⟨x, rfl⟩
      have hc0mem : c0 ∈ kw := by
        rw [hu1]
        exact List.mem_append_left _ (mem_of_getLast_some hc0)
      have hword := (kwVariants_facts kw hkw).2.1 c0 hc0mem
      rw [hlast c0 hc0] at hword
      exact Bool.false_ne_true hword

theorem occBody_cons_lift (prev : Option Char) (c : Char) (rest : List Char)
    (d : String) (h : OccBody (some c) rest d) : OccBody prev (c :: rest) d := by
  obtain ⟨pre, tail, n, heq, hms, hbd⟩ := h
  refine ⟨c :: pre, tail, n, by rw [heq]; simp, hms, ?_⟩
  cases pre with
  | nil =>
    have hw : isWordChar c = false := by simpa [bdryOk] using hbd
    simpa using hw
  | cons p ps =>
    rw [show (c :: p :: ps).getLast? = (p :: ps).getLast? from List.getLast?_cons_cons]
    exact hbd

theorem occBody_split (prev : Option Char) (c : Char) (rest : List Char) (d : String)
    (hocc : OccBody prev (c :: rest) d) :
    (bdryOk prev = true ∧ ∃ n, mBody (c :: rest) = some (d, n))
      ∨ OccBody (some c) rest d := by
  obtain ⟨pre, tail, n, heq, hms, hbd⟩ := hocc
  cases pre with
  | nil =>
    left
    have hb : bdryOk prev = true := by simpa using hbd
    have htail : tail = c :: rest := by simpa using heq.symm
    exact ⟨hb, n, (mBody_eq_some_iff _ _ _).mpr (htail ▸ hms)⟩
  | cons p ps =>
    right
    have hc : c = p ∧ rest = ps ++ tail := by simpa using heq
    refine ⟨ps, tail, n, hc.2, hms, ?_⟩
    cases ps with
    | nil =>
      have hw : isWordChar p = false := by simpa using hbd
      have : bdryOk (some c) = true := by
        rw [hc.1]
        simp [bdryOk, hw]
      simpa using this
    | cons q qs =>
      rw [show (q :: qs).getLast? = (p :: q :: qs).getLast? from List.getLast?_cons_cons.symm]
      exact hbd

theorem occBody_append_lift (prev : Option Char) (a b : List Char) (d : String)
    (h : OccBody (prevOf prev a) b d) : OccBody prev (a ++ b) d := by
  obtain ⟨pre, tail, n, heq, hms, hbd⟩ := h
  refine ⟨a ++ pre, tail, n, by rw [heq, List.append_assoc], hms, ?_⟩
  cases pre with
  | nil =>
    have hb : bdryOk (prevOf prev a) = true := by simpa using hbd
    rw [List.append_nil]
    cases hgl : a.getLast? with
    | none =>
      have hpo : prevOf prev a = prev := by simp [prevOf, hgl]
      rw [hpo] at hb
      exact hb
    | some x =>
      have hpo : prevOf prev a = some x := by simp [prevOf, hgl]
      rw [hpo] at hb
      simpa [bdryOk] using hb
  | cons p ps =>
    rw [List.getLast?_append_of_ne_nil _ (by simp)]
    exact hbd

theorem bodyScanAux_mem_iff (d : String) :
    ∀ (fuel : Nat) (s : List Char) (prev : Option Char), s.length < fuel →
      (d ∈ bodyScanAux fuel prev s ↔ OccBody prev s d) := by
  intro fuel
  induction fuel with
  | zero => intro s prev h; omega
  | succ fuel ih =>
    intro s prev hlen
    cases s with
    | nil =>
      simp only [bodyScanAux]
      constructor
      · intro h; simp at h
      · rintro ⟨pre, tail, n, heq, ⟨kw, sp, rest, htail, -, -, -, -, -, -, -⟩, -⟩
        have hl := congrArg List.length heq
        rw [htail] at hl
        simp only [List.length_nil, List.length_append, List.length_cons] at hl
        omega
    | cons c rest =>
      rw [bodyScanAux]
      by_cases hb : bdryOk prev = true
      · rw [if_pos hb]
        cases hm : mBody (c :: rest) with
        | none =>
          have hlen1 : rest.length < fuel := by
            simp only [List.length_cons] at hlen
            omega
          rw [ih rest (some c) hlen1]
          constructor
          · exact occBody_cons_lift prev c rest d
          · intro hocc
            rcases occBody_split prev c rest d hocc with ⟨-, n, hmm⟩ | h
            · rw [hm] at hmm
              exact absurd hmm (by simp)
            · exact h
        | some dn =>
          obtain ⟨d₀, n⟩ := dn
          have hms₀ := (mBody_eq_some_iff _ _ _).mp hm
          obtain ⟨kw₀, sp₀, rest₀, heq₀, hkw₀, hspne₀, hsp₀, hdne₀, hdig₀, hrest₀, hn₀⟩ := hms₀
          have hspan : c :: rest = (kw₀ ++ (sp₀ ++ '#' :: d₀.data)) ++ rest₀ := by
            rw [heq₀]
            simp
          have hlenspan : (kw₀ ++ (sp₀ ++ '#' :: d₀.data)).length = n := by
            simp only [List.length_append, List.length_cons]
            omega
          have hdropn : (c :: rest).drop n = rest₀ := by
            rw [hspan, ← hlenspan, List.drop_left]
          have htaken : (c :: rest).take n = kw₀ ++ (sp₀ ++ '#' :: d₀.data) := by
            rw [hspan, ← hlenspan, List.take_left]
          have hlen2 : rest₀.length < fuel := by
            have hl := congrArg List.length hspan
            simp only [List.length_cons, List.length_append] at hl hlen
            omega
          -- the last char of the span is the last digit of the capture
          obtain ⟨lastc, hlastc⟩ : ∃ x, (kw₀ ++ (sp₀ ++ '#' :: d₀.data)).getLast? = some x := by
            cases hgl : (kw₀ ++ (sp₀ ++ '#' :: d₀.data)).getLast? with
            | none =>
              have : kw₀ ++ (sp₀ ++ '#' :: d₀.data) = [] := List.getLast?_eq_none_iff.mp hgl
              exact absurd (congrArg List.length this) (by simp)
            | some x => exact ⟨x, rfl⟩
          dsimp only
          rw [hdropn, htaken]
          rw [List.mem_cons, ih rest₀ _ hlen2]
          constructor
          · rintro (rfl | hocc)
            · exact ⟨[], c :: rest, n,
                by simp, ⟨kw₀, sp₀, rest₀, heq₀, hkw₀, hspne₀, hsp₀, hdne₀, hdig₀, hrest₀, hn₀⟩,
                by simpa using hb⟩
            · rw [show ((c : Char) :: rest : List Char)
                  = (kw₀ ++ (sp₀ ++ '#' :: d₀.data)) ++ rest₀ from hspan]
              refine occBody_append_lift prev _ _ d ?_
              have hpo : prevOf prev (kw₀ ++ (sp₀ ++ '#' :: d₀.data))
                  = (kw₀ ++ (sp₀ ++ '#' :: d₀.data)).getLast? := by
                simp [prevOf, hlastc]
              rw [hpo]
              exact hocc
          · intro hocc
            obtain ⟨pre, tail, n₂, heq₂, hms₂, hbd₂⟩ := hocc
            cases pre with
            | nil =>
              left
              have htail : tail = c :: rest := by simpa using heq₂.symm
              have hsome : mBody (c :: rest) = some (d, n₂) :=
                (mBody_eq_some_iff _ _ _).mpr (htail ▸ hms₂)
              rw [hm] at hsome
              have := Option.some.inj hsome
              exact (congrArg Prod.fst this).symm
            | cons p ps =>
              right
              have hcmp : (p :: ps) ++ tail = (kw₀ ++ (sp₀ ++ '#' :: d₀.data)) ++ rest₀ := by
                rw [← heq₂, ← hspan]
              have hlast2 : ∀ c₁, (p :: ps).getLast? = some c₁ → isWordChar c₁ = false := by
                intro c₁ hc₁
                rw [hc₁] at hbd₂
                exact hbd₂
              rcases List.append_eq_append_iff.mp hcmp with ⟨w, hw1, hw2⟩ | ⟨w, hw1, hw2⟩
              · -- span = (p :: ps) ++ w
                cases w with
                | nil =>
                  -- the occurrence starts exactly at the end of the span
                  simp only [List.append_nil] at hw1
                  simp only [List.nil_append] at hw2
                  refine ⟨[], tail, n₂, by simpa using hw2.symm, hms₂, ?_⟩
                  have hpl : (p :: ps).getLast? = some lastc := by
                    rw [← hw1]
                    exact hlastc
                  have hwc : isWordChar lastc = false := hlast2 lastc hpl
                  have hbk : bdryOk ((kw₀ ++ (sp₀ ++ '#' :: d₀.data)).getLast?) = true := by
                    rw [hlastc]
                    simp [bdryOk, hwc]
                  simpa using hbk
                | cons w0 w' =>
                  exfalso
                  obtain ⟨kw₂, sp₂, rest₂, htail₂, hkw₂, hspne₂, -, -, -, -, -⟩ := hms₂
                  have hkw₂ne := (kwVariants_facts kw₂ hkw₂).1
                  have hkw₂head := (kwVariants_facts kw₂ hkw₂).2.2
                  have hw0 : (w0 :: (w' ++ rest₀)).head? = kw₂.head? := by
                    have : tail.head? = ((w0 :: w') ++ rest₀).head? := by rw [hw2]
                    rw [htail₂] at this
                    obtain ⟨k2, kw₂', rfl⟩ : ∃ k2 kw₂', kw₂ = k2 :: kw₂' := by
                      cases kw₂ with
                      | nil => exact absurd rfl hkw₂ne
                      | cons x xs => exact ⟨x, xs, rfl⟩
                    simpa using this.symm
                  refine body_no_inner_start kw₀ sp₀ d₀.data hkw₀ hspne₀ hsp₀ hdig₀
                    (p :: ps) (w0 :: w') (by simp) ?_ hlast2 (by rw [hw1])
                  refine ⟨w0, rfl, ?_⟩
                  rcases hkw₂head with h1 | h1 | h1 <;> rw [h1] at hw0 <;>
                    simp only [List.head?_cons, Option.some.injEq] at hw0
                  · exact Or.inl hw0
                  · exact Or.inr (Or.inl hw0)
                  · exact Or.inr (Or.inr hw0)
              · -- (p :: ps) = span ++ w
                refine ⟨w, tail, n₂, hw2, hms₂, ?_⟩
                cases w with
                | nil =>
                  simp only [List.append_nil] at hw1
                  have hpl : (p :: ps).getLast? = some lastc := by
                    rw [hw1]
                    exact hlastc
                  have hwc : isWordChar lastc = false := hlast2 lastc hpl
                  have hbk : bdryOk ((kw₀ ++ (sp₀ ++ '#' :: d₀.data)).getLast?) = true := by
                    rw [hlastc]
                    simp [bdryOk, hwc]
                  simpa using hbk
                | cons w0 w' =>
                  have hgl : (w0 :: w').getLast? = (p :: ps).getLast? := by
                    rw [hw1, List.getLast?_append_of_ne_nil _ (by simp)]
                  rw [hgl]
                  cases hgl2 : (p :: ps).getLast? with
                  | none =>
                    exact absurd (List.getLast?_eq_none_iff.mp hgl2) (by simp)
                  | some c₁ =>
                    exact hlast2 c₁ hgl2
      · rw [if_neg hb]
        have hlen1 : rest.length < fuel := by
          simp only [List.length_cons] at hlen
          omega
        rw [ih rest (some c) hlen1]
        constructor
        · exact occBody_cons_lift prev c rest d
        · intro hocc
          rcases occBody_split prev c rest d hocc with ⟨hb', -⟩ | h
          · exact absurd hb' hb
          · exact h

theorem bodyIds_mem_iff (body d : String) :
    d ∈ bodyIds body ↔ BodyRef body d := by
  unfold bodyIds BodyRef
  rw [bodyScanAux_mem_iff d (body.data.length + 1) (lcList body.data) none
    (by simp [lcList])]

theorem titleIds_mem_iff (title d : String) :
    d ∈ titleIds title ↔ TitleRef title d := by
  unfold titleIds TitleRef
  rw [titleScanAux_mem_iff d (title.data.length + 1) title.data (by omega)]
  exact Iff.rfl

theorem prIssueIds_mem_iff (pr : PR) (d : String) :
    d ∈ prIssueIds pr ↔
      BranchRef pr.headRefName d ∨ BodyRef pr.body d ∨ TitleRef pr.title d := by
  unfold prIssueIds
  simp only [List.mem_append]
  have hbr : (d ∈ match branchIssue pr.headRefName with
      | some x => [x]
      | none => ([] : List String)) ↔ BranchRef pr.headRefName d := by
    rw [← branchIssue_eq_some_iff]
    cases hbi : branchIssue pr.headRefName with
    | none => simp
    | some x =>
      simp only [List.mem_singleton, Option.some.injEq]
      constructor
      · intro h; rw [h]
      · intro h; rw [h]
  have hbo : (d ∈ if pr.body ≠ "" then bodyIds pr.body else []) ↔ BodyRef pr.body d := by
    by_cases hbody : pr.body = ""
    · rw [if_neg (by simp [hbody])]
      rw [hbody]
      constructor
      · intro h; simp at h
      · intro h
        have := (bodyIds_mem_iff "" d).mpr h
        simp [bodyIds, lcList, bodyScanAux] at this
    · rw [if_pos hbody]
      exact bodyIds_mem_iff pr.body d
  rw [hbr, hbo, titleIds_mem_iff]
  exact or_assoc

/-- C8.  The in-flight set `prLinkedIssues` contains exactly the ids `d`
such that some open PR's branch name ends in `-d`, or the PR body
contains a word-bounded closing keyword (`close/closes/closed`,
`fix/fixes/fixed`, `resolve/resolves/resolved`, case-insensitively)
followed by whitespace and `#d`, or the PR title contains `(#d)` — with
`d` a nonempty maximal digit run in each case; and when the PR source is
unreachable or unparsable the in-flight set is empty (fail open), so
discovery proceeds with nothing excluded. -/
theorem inflight_characterization :
    (∀ (prs : List PR) (d : String),
      d ∈ prLinkedIssues prs ↔
        ∃ pr ∈ prs, BranchRef pr.headRefName d ∨ BodyRef pr.body d ∨ TitleRef pr.title d)
    ∧ (∀ e : String, buildInFlight (.error e) = [])
    ∧ (∀ tasks claimed filter now,
        rank now tasks claimed (buildInFlight (.error "unreachable")) filter
          = rank now tasks claimed [] filter) := by
  refine ⟨?_, fun _ => rfl, fun _ _ _ _ => rfl⟩
  intro prs d
  unfold prLinkedIssues
  simp only [List.mem_flatten, List.mem_map]
  constructor
  · rintro ⟨l, ⟨pr, hpr, rfl⟩, hdl⟩
    exact ⟨pr, hpr, (prIssueIds_mem_iff pr d).mp hdl⟩
  · rintro ⟨pr, hpr, h⟩
    exact ⟨prIssueIds pr, ⟨pr, hpr, rfl⟩, (prIssueIds_mem_iff pr d).mpr h⟩

end RepoMap
